import Mathlib

/-!
Verification of the JSON codec for the protobuf Struct/Value well-known types
(src/types/struct.go).

Shallow embedding conventions:

* A Go string is modelled as a list of Unicode scalar values (List Char).
  Valid-UTF-8 Go strings are in bijection with such lists, so utf8.ValidString
  is constantly true on the model; strings containing invalid UTF-8 bytes are
  outside the model (no claim depends on them).
* A Go float64 is modelled by the inductive GoFloat: the three non-finite
  values NaN, +Inf, -Inf, plus finite values carried as exact rationals.
  The claims under verification never depend on binary rounding, so the
  finite payload is kept exact; the strconv.ParseFloat range error (ErrRange
  on overflow/underflow) is modelled by exact comparison against the
  float64 overflow/underflow rounding thresholds.
* The Go standard library collaborators used by struct.go (encoding/json
  tokenizing and string quoting, strconv.ParseFloat, strconv.ParseBool,
  encoding/base64) are not part of the repository; they are modelled here
  as executable Lean functions following their documented behaviour
  (RFC 8259 syntax for the json scanner, the exact accepted-string list for
  ParseBool, Go's escaping table for json string encoding).  The float
  formatter is modelled by an exact-decimal printer satisfying the contract
  the code relies on: its output is a JSON number literal that ParseFloat
  maps back to the same value.
* Errors built with fmt.Errorf are modelled structurally (one constructor
  per format string) rather than as flat text.
-/

namespace StructPB

/-- A Go string (valid UTF-8), as its sequence of Unicode scalar values. -/
abbrev GoStr := List Char

/-- Character class used by the json scanner for insignificant whitespace. -/
def isWS (c : Char) : Bool :=
  c = ' ' || c = '\t' || c = '\n' || c = '\r'

/-- Decimal digit test (ASCII 0-9). -/
def isDigitC (c : Char) : Bool :=
  48 ≤ c.toNat && c.toNat ≤ 57

/-- Numeric value of a decimal digit character. -/
def digitVal (c : Char) : Nat := c.toNat - 48

/-- Decimal digit character for a value below ten. -/
def digitChar (d : Nat) : Char := Char.ofNat (48 + d)

/-- Split a leading run of decimal digits from the rest of the string. -/
def takeDigits : GoStr → GoStr × GoStr
  | [] => ([], [])
  | c :: cs =>
      if isDigitC c then
        let p := takeDigits cs
        (c :: p.1, p.2)
      else ([], c :: cs)

/-- Numeric value of a big-endian digit string. -/
def digitsVal (l : GoStr) : Nat :=
  l.foldl (fun a c => a * 10 + digitVal c) 0

/-- Big-endian decimal digit string of a natural number. -/
def natToDigits (n : Nat) : GoStr :=
  if n = 0 then ['0'] else ((Nat.digits 10 n).map digitChar).reverse

/-- Digit string of m padded on the left with zeros to width w
(used for the fractional part of the exact decimal printer). -/
def padDigits (m w : Nat) : GoStr :=
  let d := natToDigits m
  List.replicate (w - d.length) '0' ++ d

/-- ASCII lower-casing, as used by strconv when matching inf/nan spellings. -/
def lowerA (c : Char) : Char :=
  if 65 ≤ c.toNat && c.toNat ≤ 90 then Char.ofNat (c.toNat + 32) else c

/-- Model of a Go float64 value: the three non-finite values, and finite
values carried as exact rationals (see the file header). -/
inductive GoFloat where
  | nan
  | inf
  | negInf
  | finite (q : ℚ)
deriving DecidableEq

/-- Failure modes of strconv.ParseFloat: a syntax error or ErrRange. -/
inductive PErr where
  | bad
  | range
deriving DecidableEq

/-- Smallest positive rational that rounds to a non-zero float64
(half the smallest denormal, 2^-1075): below it ParseFloat underflows. -/
def tinyThreshold : ℚ := 1 / 2 ^ 1075

/-- Smallest positive rational that rounds to +Inf as a float64
(2^1024 - 2^970): at or above it ParseFloat reports ErrRange. -/
def ovfThreshold : ℚ := 2 ^ 1024 - 2 ^ 970

/-- Range check performed by strconv.ParseFloat after computing the exact
decimal value: overflow and underflow-to-zero report ErrRange. -/
def rangeCheck (v : ℚ) : Except PErr GoFloat :=
  if ovfThreshold ≤ |v| then .error .range
  else if v ≠ 0 ∧ |v| < tinyThreshold then .error .range
  else .ok (.finite v)

/-- Ten to a signed power, as an exact rational. -/
def qpow10 (e : ℤ) : ℚ :=
  if 0 ≤ e then (10 : ℚ) ^ e.toNat else 1 / (10 : ℚ) ^ (-e).toNat

/-- Model of strconv.ParseFloat(s, 0) from struct.go's number branch:
optional sign, the case-insensitive inf/infinity/nan spellings, or a
decimal mantissa with optional fraction and exponent; anything else is a
syntax error.  The exact decimal value is computed and range-checked.
(Hexadecimal floats and digit-group underscores, which Go also accepts,
are outside the model; no claim reaches them.) -/
def parseFloat (s : GoStr) : Except PErr GoFloat :=
  match s with
  | [] => .error .bad
  | c0 :: _ =>
    let neg : Bool := c0 = '-'
    let s1 : GoStr := if c0 = '-' ∨ c0 = '+' then s.tail else s
    let low : GoStr := s1.map lowerA
    if low = "inf".data ∨ low = "infinity".data then
      .ok (if neg then .negInf else .inf)
    else if (c0 = 'n' ∨ c0 = 'N') ∧ low = "nan".data then
      .ok .nan
    else
      let ip := takeDigits s1
      let fr : GoStr × GoStr :=
        if ip.2.head? = some '.' then takeDigits ip.2.tail else ([], ip.2)
      if ip.1 = [] ∧ fr.1 = [] then .error .bad
      else
        let mant : ℚ := (digitsVal ip.1 : ℚ) + (digitsVal fr.1 : ℚ) / 10 ^ fr.1.length
        let signed : ℚ := if neg then -mant else mant
        match fr.2 with
        | [] => rangeCheck signed
        | e :: rr =>
          if e = 'e' ∨ e = 'E' then
            let esign : Bool := match rr with | '-' :: _ => true | _ => false
            let rr2 : GoStr := match rr with | '-' :: q => q | '+' :: q => q | _ => rr
            let ed := takeDigits rr2
            if ed.1 = [] ∨ ed.2 ≠ [] then .error .bad
            else
              let ex : ℤ := if esign then -(digitsVal ed.1 : ℤ) else (digitsVal ed.1 : ℤ)
              rangeCheck (signed * qpow10 ex)
          else .error .bad

/-- Model of strconv.ParseBool: exactly the twelve accepted spellings. -/
def parseBool (s : GoStr) : Except Unit Bool :=
  if s = "1".data ∨ s = "t".data ∨ s = "T".data ∨
     s = "true".data ∨ s = "TRUE".data ∨ s = "True".data then .ok true
  else if s = "0".data ∨ s = "f".data ∨ s = "F".data ∨
     s = "false".data ∨ s = "FALSE".data ∨ s = "False".data then .ok false
  else .error ()

/-- Least exponent t with d dividing 10^t, searched up to the float64
denominator bound (den of a finite double divides 2^1074). -/
def pow10Exp (d : Nat) : Option Nat :=
  (List.range 1100).find? (fun t => 10 ^ t % d = 0)

/-- Exact-decimal printer for a finite float64 value, the model of the
encoding/json number formatter (see the file header: the contract relied
on by the code is that the output is a JSON number literal that ParseFloat
maps back to the same value; Go's shortest-form and e-notation choices
are not observable through any claim).  The fallback branch is unreachable
for float64-representable inputs. -/
def formatFloat (q : ℚ) : GoStr :=
  let sign : GoStr := if q.num < 0 then ['-'] else []
  match pow10Exp q.den with
  | none => sign ++ natToDigits q.num.natAbs
  | some t =>
    let scaled := q.num.natAbs * (10 ^ t / q.den)
    if t = 0 then sign ++ natToDigits scaled
    else sign ++ natToDigits (scaled / 10 ^ t) ++ '.' :: padDigits (scaled % 10 ^ t) t

/-! ## Model of the encoding/json scanner (the external tokenizer collaborator) -/

/-- Structured model of the errors the encoding/json scanner reports
(syntax errors and unmarshal-type mismatches); the exact Go message text
is not observable through any claim, only which call failed. -/
inductive ScanErr where
  | unexpectedEnd
  | invalidChar (c : Char)
  | invalidEscape
  | typeMismatch
  | depth
deriving DecidableEq

/-- Skip insignificant JSON whitespace. -/
def skipWS : GoStr → GoStr
  | [] => []
  | c :: r => if isWS c then skipWS r else c :: r

/-- Strip an expected literal from the front of the string. -/
def stripLit : GoStr → GoStr → Option GoStr
  | [], s => some s
  | _ :: _, [] => none
  | l :: ls, c :: cs => if c = l then stripLit ls cs else none

/-- Hexadecimal digit value, upper or lower case. -/
def hexVal (c : Char) : Option Nat :=
  if 48 ≤ c.toNat ∧ c.toNat ≤ 57 then some (c.toNat - 48)
  else if 97 ≤ c.toNat ∧ c.toNat ≤ 102 then some (c.toNat - 87)
  else if 65 ≤ c.toNat ∧ c.toNat ≤ 70 then some (c.toNat - 55)
  else none

/-- Lower-case hexadecimal digit character. -/
def hexDigitL (n : Nat) : Char :=
  if n < 10 then Char.ofNat (48 + n) else Char.ofNat (87 + n)

/-- Four-hex-digit unicode escape, lower case, as emitted by encoding/json. -/
def uEscape (n : Nat) : GoStr :=
  ['\\', 'u', hexDigitL (n / 4096 % 16), hexDigitL (n / 256 % 16),
   hexDigitL (n / 16 % 16), hexDigitL (n % 16)]

/-- Escaping of one character inside a JSON string literal, following the
encoding/json encoder (HTML escaping on, as json.Marshal defaults to). -/
def escapeChar (c : Char) : GoStr :=
  if c = '"' then ['\\', '"']
  else if c = '\\' then ['\\', '\\']
  else if c = '\n' then ['\\', 'n']
  else if c = '\r' then ['\\', 'r']
  else if c = '\t' then ['\\', 't']
  else if c.toNat < 32 then uEscape c.toNat
  else if c = '<' ∨ c = '>' ∨ c = '&' then uEscape c.toNat
  else if c.toNat = 8232 ∨ c.toNat = 8233 then uEscape c.toNat
  else [c]

/-- Escaped content of a JSON string literal. -/
def escapeContent (s : GoStr) : GoStr := (s.map escapeChar).flatten

/-- Quoted JSON string literal for s, as json.Marshal produces. -/
def quoteString (s : GoStr) : GoStr := '"' :: escapeContent s ++ ['"']

/-- Decoded character of a short escape sequence. -/
def unqShort (e : Char) : Char :=
  match e with
  | 'b' => Char.ofNat 8
  | 'f' => Char.ofNat 12
  | 'n' => '\n'
  | 'r' => '\r'
  | 't' => '\t'
  | _ => e

mutual

/-- Unescaping of validated JSON string content, following encoding/json's
unquote: the short escapes via unqEsc/unqShort, u-escapes with
surrogate-pair combination via unqU (U+FFFD for unpaired surrogates);
branches only reachable on content the scanner rejects return garbage
that no caller observes. -/
def unquoteContent : GoStr → GoStr
  | [] => []
  | c :: rest => if c = '\\' then unqEsc rest else c :: unquoteContent rest
termination_by s => s.length
decreasing_by all_goals simp_wf <;> omega

/-- Unescaping after a backslash. -/
def unqEsc : GoStr → GoStr
  | [] => []
  | e :: rest2 => if e = 'u' then unqU rest2 else unqShort e :: unquoteContent rest2
termination_by s => s.length
decreasing_by all_goals simp_wf <;> omega

/-- Unescaping of a u-escape (input positioned after the backslash-u). -/
def unqU : GoStr → GoStr
  | a :: b :: c :: d :: rest3 =>
    (match hexVal a, hexVal b, hexVal c, hexVal d with
     | some ha, some hb, some hc, some hd =>
       let n := ha * 4096 + hb * 256 + hc * 16 + hd
       if 55296 ≤ n ∧ n ≤ 56319 then
         match rest3 with
         | '\\' :: 'u' :: a2 :: b2 :: c2 :: d2 :: rest4 =>
           (match hexVal a2, hexVal b2, hexVal c2, hexVal d2 with
            | some ka, some kb, some kc, some kd =>
              let n2 := ka * 4096 + kb * 256 + kc * 16 + kd
              if 56320 ≤ n2 ∧ n2 ≤ 57343 then
                Char.ofNat (65536 + (n - 55296) * 1024 + (n2 - 56320)) ::
                  unquoteContent rest4
              else Char.ofNat 65533 :: unqU (a2 :: b2 :: c2 :: d2 :: rest4)
            | _, _, _, _ => Char.ofNat 65533 :: unqU (a2 :: b2 :: c2 :: d2 :: rest4))
         | other => Char.ofNat 65533 :: unquoteContent other
       else if 56320 ≤ n ∧ n ≤ 57343 then Char.ofNat 65533 :: unquoteContent rest3
       else Char.ofNat n :: unquoteContent rest3
     | _, _, _, _ => unquoteContent rest3)
  | _ => []
termination_by s => s.length
decreasing_by all_goals simp_wf <;> omega

end

mutual

/-- Scan the body of a JSON string literal (input is positioned after the
opening quote); returns the raw content and the rest after the closing
quote, validating escapes and rejecting raw control characters. -/
def scanStringBody : GoStr → Except ScanErr (GoStr × GoStr)
  | [] => .error .unexpectedEnd
  | c :: rest =>
    if c = '"' then .ok ([], rest)
    else if c = '\\' then scanEsc rest
    else if c.toNat < 32 then .error (.invalidChar c)
    else
      match scanStringBody rest with
      | .ok p => .ok (c :: p.1, p.2)
      | .error er => .error er
termination_by s => s.length
decreasing_by all_goals simp_wf <;> omega

/-- Scan the remainder of an escape sequence (input positioned after the
backslash): the short escapes, or a u-escape with four hex digits. -/
def scanEsc : GoStr → Except ScanErr (GoStr × GoStr)
  | [] => .error .unexpectedEnd
  | e :: rest2 =>
    if e = '"' ∨ e = '\\' ∨ e = '/' ∨ e = 'b' ∨ e = 'f' ∨ e = 'n' ∨ e = 'r' ∨ e = 't' then
      match scanStringBody rest2 with
      | .ok p => .ok ('\\' :: e :: p.1, p.2)
      | .error er => .error er
    else if e = 'u' then scanU rest2
    else .error .invalidEscape
termination_by s => s.length
decreasing_by all_goals simp_wf <;> omega

/-- Scan the four hex digits of a u-escape. -/
def scanU : GoStr → Except ScanErr (GoStr × GoStr)
  | a :: b :: c :: d :: rest3 =>
    if (hexVal a).isSome ∧ (hexVal b).isSome ∧ (hexVal c).isSome ∧ (hexVal d).isSome then
      match scanStringBody rest3 with
      | .ok p => .ok ('\\' :: 'u' :: a :: b :: c :: d :: p.1, p.2)
      | .error er => .error er
    else .error .invalidEscape
  | _ => .error .unexpectedEnd
termination_by s => s.length
decreasing_by all_goals simp_wf <;> omega

end

/-- Scan the fractional part of a JSON number, if present. -/
def scanFrac (s : GoStr) : Except ScanErr GoStr :=
  if s.head? = some '.' then
    let fd := takeDigits s.tail
    if fd.1 = [] then
      .error (match s.tail with | [] => .unexpectedEnd | c :: _ => .invalidChar c)
    else .ok fd.2
  else .ok s

/-- Scan the exponent part of a JSON number, if present. -/
def scanExp (s : GoStr) : Except ScanErr GoStr :=
  if s.head? = some 'e' ∨ s.head? = some 'E' then
    let rr := s.tail
    let rr2 : GoStr := if rr.head? = some '-' ∨ rr.head? = some '+' then rr.tail else rr
    let ed := takeDigits rr2
    if ed.1 = [] then
      .error (match rr2 with | [] => .unexpectedEnd | c :: _ => .invalidChar c)
    else .ok ed.2
  else .ok s

/-- Scan a JSON number token per the RFC 8259 grammar (no leading zeros,
at least one integer digit); returns the rest after the token. -/
def scanNumber (s : GoStr) : Except ScanErr GoStr :=
  let s1 : GoStr := if s.head? = some '-' then s.tail else s
  match s1 with
  | [] => .error .unexpectedEnd
  | c :: cs =>
    if isDigitC c then
      let afterInt : GoStr := if c = '0' then cs else (takeDigits s1).2
      match scanFrac afterInt with
      | .ok r2 => scanExp r2
      | .error er => .error er
    else .error (.invalidChar c)

mutual

/-- Scan one JSON value; input is positioned at the first character of the
value, the result is the rest of the string after the value.  The fuel
bounds the nesting depth only. -/
def scanValue : Nat → GoStr → Except ScanErr GoStr
  | 0, _ => .error .depth
  | Nat.succ fuel, s =>
    match s with
    | [] => .error .unexpectedEnd
    | c :: rest =>
      if c = 'n' then
        match stripLit "null".data s with
        | some r => .ok r
        | none => .error (.invalidChar c)
      else if c = 't' then
        match stripLit "true".data s with
        | some r => .ok r
        | none => .error (.invalidChar c)
      else if c = 'f' then
        match stripLit "false".data s with
        | some r => .ok r
        | none => .error (.invalidChar c)
      else if c = '"' then
        match scanStringBody rest with
        | .ok p => .ok p.2
        | .error er => .error er
      else if c = '-' ∨ isDigitC c then scanNumber s
      else if c = '[' then
        let s2 := skipWS rest
        if s2.head? = some ']' then .ok s2.tail
        else
          match scanItems fuel s2.length s2 with
          | .ok p => .ok p.2
          | .error er => .error er
      else if c = '\x7b' then
        let s2 := skipWS rest
        if s2.head? = some '\x7d' then .ok s2.tail
        else
          match scanMembers fuel s2.length s2 with
          | .ok p => .ok p.2
          | .error er => .error er
      else .error (.invalidChar c)

/-- Scan the items of a JSON array (input positioned at the first character
of an item); returns the raw text of each item and the rest after the
closing bracket.  The iteration budget is initialized to the string length
by the caller and only guards termination. -/
def scanItems : Nat → Nat → GoStr → Except ScanErr (List GoStr × GoStr)
  | _, 0, _ => .error .depth
  | fuel, Nat.succ iter, s =>
    match scanValue fuel s with
    | .error er => .error er
    | .ok rest =>
      let raw := s.take (s.length - rest.length)
      let t := skipWS rest
      if t.head? = some ',' then
        match scanItems fuel iter (skipWS t.tail) with
        | .ok p => .ok (raw :: p.1, p.2)
        | .error er => .error er
      else if t.head? = some ']' then .ok ([raw], t.tail)
      else
        match t with
        | [] => .error .unexpectedEnd
        | c :: _ => .error (.invalidChar c)

/-- Scan the members of a JSON object (input positioned at the first
character of a member, i.e. at its key); returns the decoded key and the
raw value text of each member, and the rest after the closing brace. -/
def scanMembers : Nat → Nat → GoStr → Except ScanErr (List (GoStr × GoStr) × GoStr)
  | _, 0, _ => .error .depth
  | fuel, Nat.succ iter, s =>
    if s.head? = some '"' then
      match scanStringBody s.tail with
      | .error er => .error er
      | .ok kp =>
        let key := unquoteContent kp.1
        let tc := skipWS kp.2
        if tc.head? = some ':' then
          let v0 := skipWS tc.tail
          match scanValue fuel v0 with
          | .error er => .error er
          | .ok rest =>
            let raw := v0.take (v0.length - rest.length)
            let t := skipWS rest
            if t.head? = some ',' then
              match scanMembers fuel iter (skipWS t.tail) with
              | .ok p => .ok ((key, raw) :: p.1, p.2)
              | .error er => .error er
            else if t.head? = some '\x7d' then .ok ([(key, raw)], t.tail)
            else
              match t with
              | [] => .error .unexpectedEnd
              | c :: _ => .error (.invalidChar c)
        else
          match tc with
          | [] => .error .unexpectedEnd
          | c :: _ => .error (.invalidChar c)
    else
      match s with
      | [] => .error .unexpectedEnd
      | c :: _ => .error (.invalidChar c)

end

/-- Scanner fuel used by the top-level entry points: the nesting depth of a
JSON text is strictly bounded by its length. -/
def depthFuel (s : GoStr) : Nat := s.length + 1

/-- Replace-or-append insertion, the model of assignment into a Go map
(used with string keys). -/
def insertKV {α : Type} : List (GoStr × α) → GoStr → α → List (GoStr × α)
  | [], k, v => [(k, v)]
  | (k0, v0) :: rest, k, v =>
      if k0 = k then (k0, v) :: rest else (k0, v0) :: insertKV rest k v

/-- Collapse duplicate keys with last-occurrence-wins, as decoding a JSON
object into a Go map does. -/
def collapseKeys {α : Type} (l : List (GoStr × α)) : List (GoStr × α) :=
  l.foldl (fun acc p => insertKV acc p.1 p.2) []

/-- Model of json.Unmarshal(s, &lsqb;&rsqb;json.RawMessage): validate that s is a
JSON array with only trailing whitespace and return the raw text of each
element. -/
def goSplitArray (s : GoStr) : Except ScanErr (List GoStr) :=
  let s1 := skipWS s
  if s1.head? = some '[' then
    let s2 := skipWS s1.tail
    if s2.head? = some ']' then
      match skipWS s2.tail with
      | [] => .ok []
      | c :: _ => .error (.invalidChar c)
    else
      match scanItems (depthFuel s) s2.length s2 with
      | .error er => .error er
      | .ok p =>
        match skipWS p.2 with
        | [] => .ok p.1
        | c :: _ => .error (.invalidChar c)
  else if s1 = [] then .error .unexpectedEnd
  else .error .typeMismatch

/-- Model of json.Unmarshal(s, &map&lsqb;string&rsqb;json.RawMessage): validate that
s is a JSON object with only trailing whitespace and return its members as
decoded-key / raw-value pairs, duplicate keys collapsed last-wins. -/
def goSplitObject (s : GoStr) : Except ScanErr (List (GoStr × GoStr)) :=
  let s1 := skipWS s
  if s1.head? = some '\x7b' then
    let s2 := skipWS s1.tail
    if s2.head? = some '\x7d' then
      match skipWS s2.tail with
      | [] => .ok []
      | c :: _ => .error (.invalidChar c)
    else
      match scanMembers (depthFuel s) s2.length s2 with
      | .error er => .error er
      | .ok p =>
        match skipWS p.2 with
        | [] => .ok (collapseKeys p.1)
        | c :: _ => .error (.invalidChar c)
  else if s1 = [] then .error .unexpectedEnd
  else .error .typeMismatch

/-- Model of the unquote helper of struct.go: json.Unmarshal of s into a
Go string, i.e. s must be a JSON string literal (with only surrounding
whitespace) and the result is its unescaped content. -/
def unquote (s : GoStr) : Except ScanErr GoStr :=
  let s1 := skipWS s
  if s1.head? = some '"' then
    match scanStringBody s1.tail with
    | .error er => .error er
    | .ok p =>
      match skipWS p.2 with
      | [] => .ok (unquoteContent p.1)
      | c :: _ => .error (.invalidChar c)
  else if s1 = [] then .error .unexpectedEnd
  else .error .typeMismatch

/-- Validity of a whole string as one JSON value (the well-formedness the
spec assumes of tokens handed to the classifier). -/
def jsonValid (s : GoStr) : Bool :=
  match scanValue (depthFuel s) (skipWS s) with
  | .ok r => (skipWS r).isEmpty
  | .error _ => false

/-! ## The Value / Struct / ListValue data model

The gogo protobuf generated types behind struct.go:

* Value has an interface field Kind that is nil when unset; each variant
  (Value_NullValue .. Value_ListValue) is a pointer that is itself nilable
  while stored in the interface.  Both levels appear as Option below.
* Struct has a nilable map field Fields, modelled as an Option association
  list (iteration order of the Go map is modelled by list order); the map
  values are nilable pointers to Value.
* ListValue has a nilable slice field Values of nilable pointers.
* The NullValue payload is a single-valued enum, modelled as Unit.
* A nil Struct/ListValue pointer stored inside an already non-nil
  Value_StructValue/Value_ListValue wrapper is not modelled (no claim
  reaches that state, which panics in MarshalJSON). -/

mutual
inductive Value where
  | mk : Option ValueKind → Value
inductive ValueKind where
  | nullValue : Option Unit → ValueKind
  | numberValue : Option GoFloat → ValueKind
  | stringValue : Option GoStr → ValueKind
  | boolValue : Option Bool → ValueKind
  | structValue : Option Struct → ValueKind
  | listValue : Option ListValue → ValueKind
inductive Struct where
  | mk : Option (List (GoStr × Option Value)) → Struct
inductive ListValue where
  | mk : Option (List (Option Value)) → ListValue
end

/-- Kind accessor. -/
def Value.kind : Value → Option ValueKind
  | .mk k => k

/-- Model of the nil-safe generated accessor (*Value).GetKind. -/
def getKind : Option Value → Option ValueKind
  | none => none
  | some v => v.kind

/-- Fields accessor. -/
def Struct.fields : Struct → Option (List (GoStr × Option Value))
  | .mk f => f

/-- Values accessor. -/
def ListValue.values : ListValue → Option (List (Option Value))
  | .mk v => v

/-- Structured model of the errors struct.go produces with fmt.Errorf,
one constructor per format string, plus the errors surfaced from the
modelled collaborators; outOfFuel is a model artifact (unreachable when
the entry points pick their fuel). -/
inductive GoErr where
  | invalidUTF8 (s : GoStr)
  | invalidType (tag : GoStr)
  | unsupportedValue (tok : GoStr)
  | unrecognizedValue (tok : GoStr)
  | badListValue (cause : ScanErr)
  | badStructValue (cause : ScanErr)
  | badStructKey (key : GoStr) (cause : GoErr)
  | outOfFuel
deriving DecidableEq

/-- Model of json.Marshal on a float64: finite values print as a decimal
number literal, non-finite values are unsupported. -/
def jsonMarshalFloat : GoFloat → Except GoErr GoStr
  | .nan => .error (.unsupportedValue "NaN".data)
  | .inf => .error (.unsupportedValue "+Inf".data)
  | .negInf => .error (.unsupportedValue "-Inf".data)
  | .finite q => .ok (formatFloat q)

/-- Byte-wise (equivalently code-point-wise, as UTF-8 is order-preserving)
string comparison used by json.Marshal to sort map keys. -/
def strLt : GoStr → GoStr → Bool
  | _, [] => false
  | [], _ :: _ => true
  | a :: as, b :: bs => a.toNat < b.toNat || (a = b && strLt as bs)

/-- Insert one keyed entry into a key-sorted list. -/
def insertSorted {α : Type} (p : GoStr × α) : List (GoStr × α) → List (GoStr × α)
  | [] => [p]
  | q :: rest => if strLt p.1 q.1 then p :: q :: rest else q :: insertSorted p rest

/-- Insertion sort by key, the model of encoding/json's sorted map-key
iteration. -/
def sortFields {α : Type} : List (GoStr × α) → List (GoStr × α)
  | [] => []
  | p :: rest => insertSorted p (sortFields rest)

/-- Comma-join of already-rendered fragments. -/
def joinComma : List GoStr → GoStr
  | [] => []
  | [x] => x
  | x :: y :: rest => x ++ ',' :: joinComma (y :: rest)

theorem sizeOf_insertSorted {α : Type} [SizeOf α] (p : GoStr × α)
    (l : List (GoStr × α)) : sizeOf (insertSorted p l) = 1 + sizeOf p + sizeOf l := by
  induction l with
  | nil => simp [insertSorted]
  | cons q rest ih =>
    simp only [insertSorted]
    split
    · simp
    · simp [ih] <;> omega

theorem sizeOf_sortFields {α : Type} [SizeOf α] (l : List (GoStr × α)) :
    sizeOf (sortFields l) = sizeOf l := by
  induction l with
  | nil => rfl
  | cons p rest ih => simp [sortFields, sizeOf_insertSorted, ih] <;> omega

mutual

/-- Model of (Value).MarshalJSON of struct.go: dispatch on the kind; the
nil interface, the nil variant pointers and the null variant all print
as the literal null. -/
def Value.marshalJSON : Value → Except GoErr GoStr
  | .mk none => .ok "null".data
  | .mk (some k) => ValueKind.marshalK k

termination_by x => sizeOf x
decreasing_by all_goals simp_wf <;> (try simp [sizeOf_sortFields]) <;> omega

/-- Kind dispatch of (Value).MarshalJSON (the switch statement; NullValue
and the nil variant pointers fall through to the final null return). -/
def ValueKind.marshalK : ValueKind → Except GoErr GoStr
  | .nullValue _ => .ok "null".data
  | .numberValue none => .ok "null".data
  | .numberValue (some f) => jsonMarshalFloat f
  | .stringValue none => .ok "null".data
  | .stringValue (some s) => .ok (quoteString s)
  | .boolValue none => .ok "null".data
  | .boolValue (some b) => .ok (if b then "true".data else "false".data)
  | .structValue none => .ok "null".data
  | .structValue (some st) => Struct.marshalJSON st
  | .listValue none => .ok "null".data
  | .listValue (some lv) => ListValue.marshalJSON lv

termination_by x => sizeOf x
decreasing_by all_goals simp_wf <;> (try simp [sizeOf_sortFields]) <;> omega

/-- Model of (Struct).MarshalJSON: a nil Fields map marshals as the empty
object, otherwise json.Marshal of the map (sorted keys, escaped). -/
def Struct.marshalJSON : Struct → Except GoErr GoStr
  | .mk none => .ok ['\x7b', '\x7d']
  | .mk (some fs) =>
    match marshalFields (sortFields fs) with
    | .error e => .error e
    | .ok parts => .ok ('\x7b' :: (joinComma parts ++ ['\x7d']))

termination_by x => sizeOf x
decreasing_by all_goals simp_wf <;> (try simp [sizeOf_sortFields]) <;> omega

/-- Render the key:value fragments of a struct's field list. -/
def marshalFields : List (GoStr × Option Value) → Except GoErr (List GoStr)
  | [] => .ok []
  | (k, v) :: rest =>
    match marshalEntry v with
    | .error e => .error e
    | .ok vtxt =>
      match marshalFields rest with
      | .error e => .error e
      | .ok tails => .ok ((quoteString k ++ ':' :: vtxt) :: tails)

termination_by x => sizeOf x
decreasing_by all_goals simp_wf <;> (try simp [sizeOf_sortFields]) <;> omega

/-- Model of json.Marshal on a *Value: a nil pointer prints null, else the
value's MarshalJSON. -/
def marshalEntry : Option Value → Except GoErr GoStr
  | none => .ok "null".data
  | some v => Value.marshalJSON v

termination_by x => sizeOf x
decreasing_by all_goals simp_wf <;> (try simp [sizeOf_sortFields]) <;> omega

/-- Model of (ListValue).MarshalJSON: a nil Values slice marshals as the
empty array, otherwise json.Marshal of the slice. -/
def ListValue.marshalJSON : ListValue → Except GoErr GoStr
  | .mk none => .ok ['[', ']']
  | .mk (some vs) =>
    match marshalElems vs with
    | .error e => .error e
    | .ok parts => .ok ('[' :: (joinComma parts ++ [']']))

termination_by x => sizeOf x
decreasing_by all_goals simp_wf <;> (try simp [sizeOf_sortFields]) <;> omega

/-- Render the element fragments of a list's values. -/
def marshalElems : List (Option Value) → Except GoErr (List GoStr)
  | [] => .ok []
  | v :: rest =>
    match marshalEntry v with
    | .error e => .error e
    | .ok vtxt =>
      match marshalElems rest with
      | .error e => .error e
      | .ok tails => .ok (vtxt :: tails)

termination_by x => sizeOf x
decreasing_by all_goals simp_wf <;> (try simp [sizeOf_sortFields]) <;> omega

end

mutual

/-- Model of (*Value).unmarshal of struct.go: the ordered disambiguation
chain null / ParseFloat / unquote / ParseBool / array / object, mutating
the receiver's Kind; the result pairs the final receiver state with the
returned error (none on success). -/
def Value.unmarshal : Nat → Value → GoStr → Value × Option GoErr
  | 0, x, _ => (x, some .outOfFuel)
  | Nat.succ fuel, x, s =>
    if s = "null".data then (.mk (some (.nullValue (some ()))), none)
    else
      match parseFloat s with
      | .ok f => (.mk (some (.numberValue (some f))), none)
      | .error _ =>
        match unquote s with
        | .ok v => (.mk (some (.stringValue (some v))), none)
        | .error _ =>
          match parseBool s with
          | .ok b => (.mk (some (.boolValue (some b))), none)
          | .error _ =>
            match goSplitArray s with
            | .ok _ =>
              let p := ListValue.unmarshalL fuel (.mk none) s
              (.mk (some (.listValue (some p.1))), p.2)
            | .error _ =>
              match goSplitObject s with
              | .ok _ =>
                let p := Struct.unmarshalS fuel (.mk none) s
                (.mk (some (.structValue (some p.1))), p.2)
              | .error _ => (x, some (.unrecognizedValue s))

/-- Model of (*ListValue).unmarshal: split the array into raw elements
(bad ListValue on failure), then decode each element into a freshly
allocated slice; an element error is returned as-is, with the slice
holding the decoded prefix, the partial element, and nils after it. -/
def ListValue.unmarshalL : Nat → ListValue → GoStr → ListValue × Option GoErr
  | fuel, x, s =>
    match goSplitArray s with
    | .error er => (x, some (.badListValue er))
    | .ok elems =>
      let q := unmarshalElems fuel elems
      (.mk (some q.1), q.2)

/-- Decode loop over the raw elements of an array (the allocated slice has
the full length upfront; entries after a failure remain nil). -/
def unmarshalElems : Nat → List GoStr → List (Option Value) × Option GoErr
  | _, [] => ([], none)
  | fuel, sv :: rest =>
    let p := Value.unmarshal fuel (.mk none) sv
    match p.2 with
    | some e => (some p.1 :: List.replicate rest.length none, some e)
    | none =>
      let q := unmarshalElems fuel rest
      (some p.1 :: q.1, q.2)

/-- Model of (*Struct).unmarshal: split the object into members (bad
StructValue on failure), then decode each member's value into a fresh
map; a member error is wrapped with its key, the map holding the members
decoded before it. -/
def Struct.unmarshalS : Nat → Struct → GoStr → Struct × Option GoErr
  | fuel, x, s =>
    match goSplitObject s with
    | .error er => (x, some (.badStructValue er))
    | .ok members =>
      let q := unmarshalFields fuel members
      (.mk (some q.1), q.2)

/-- Decode loop over the members of an object (keys are distinct after
collapseKeys, so map insertion is modelled by consing in order). -/
def unmarshalFields : Nat → List (GoStr × GoStr) → List (GoStr × Option Value) × Option GoErr
  | _, [] => ([], none)
  | fuel, (k, jv) :: rest =>
    let p := Value.unmarshal fuel (.mk none) jv
    match p.2 with
    | some e => ([], some (.badStructKey k e))
    | none =>
      let q := unmarshalFields fuel rest
      ((k, some p.1) :: q.1, q.2)

end

/-- Model of (*Value).UnmarshalJSON: unmarshal with the standard fuel. -/
def Value.unmarshalJSON (x : Value) (s : GoStr) : Value × Option GoErr :=
  Value.unmarshal (depthFuel s) x s

/-- Model of (*ListValue).UnmarshalJSON. -/
def ListValue.unmarshalJSON (x : ListValue) (s : GoStr) : ListValue × Option GoErr :=
  ListValue.unmarshalL (depthFuel s) x s

/-- Model of (*Struct).UnmarshalJSON. -/
def Struct.unmarshalJSON (x : Struct) (s : GoStr) : Struct × Option GoErr :=
  Struct.unmarshalS (depthFuel s) x s

/-- Decoding of a JSON text into a fresh Value, as json.Unmarshal into a
zero Value does. -/
def decodeValue (s : GoStr) : Except GoErr Value :=
  let p := Value.unmarshalJSON (.mk none) s
  match p.2 with
  | some e => .error e
  | none => .ok p.1

/-! ## Native-interop adapters (NewValue / AsInterface and friends) -/

/-- Standard base64 alphabet. -/
def b64Alphabet : GoStr :=
  "ABCDEFGHIJKLMNOPQRSTUVWXYZabcdefghijklmnopqrstuvwxyz0123456789+/".data

/-- Base64 digit for a 6-bit value. -/
def b64Char (n : Nat) : Char := b64Alphabet.getD n 'A'

/-- Model of base64.StdEncoding.EncodeToString (bytes are naturals below
256; the defensive mod keeps the model total). -/
def base64Encode : List Nat → GoStr
  | [] => []
  | [a] =>
    let a := a % 256
    [b64Char (a / 4), b64Char (a % 4 * 16), '=', '=']
  | [a, b] =>
    let a := a % 256
    let b := b % 256
    [b64Char (a / 4), b64Char (a % 4 * 16 + b / 16), b64Char (b % 16 * 4), '=']
  | a :: b :: c :: rest =>
    let a := a % 256
    let b := b % 256
    let c := c % 256
    b64Char (a / 4) :: b64Char (a % 4 * 16 + b / 16) ::
      b64Char (b % 16 * 4 + c / 64) :: b64Char (c % 64) :: base64Encode rest

/-- Model of the general-purpose Go interface values accepted by NewValue
and produced by AsInterface: exactly the capability set of the conversion
table in struct.go.  The int constructor models the six integer cases
(int, int32, int64, uint, uint32, uint64), the float constructor the two
float cases; all are converted through float64, which the model keeps
exact (the possible precision loss beyond 2^53 is not observable through
any claim).  A Go map is modelled as its association list in iteration
order. -/
inductive GoAny where
  | nil
  | bool (b : Bool)
  | int (n : ℤ)
  | float (f : GoFloat)
  | str (s : GoStr)
  | bytes (bs : List Nat)
  | slice (l : List GoAny)
  | map (m : List (GoStr × GoAny))

/-- Model of utf8.ValidString: List Char carries only valid-UTF-8 strings
(see the file header), so validity holds by construction. -/
def utf8ValidString (_ : GoStr) : Bool := true

/-- NewNullValue of struct.go. -/
def NewNullValue : Value := .mk (some (.nullValue (some ())))

/-- NewBoolValue of struct.go. -/
def NewBoolValue (b : Bool) : Value := .mk (some (.boolValue (some b)))

/-- NewNumberValue of struct.go. -/
def NewNumberValue (f : GoFloat) : Value := .mk (some (.numberValue (some f)))

/-- NewStringValue of struct.go. -/
def NewStringValue (s : GoStr) : Value := .mk (some (.stringValue (some s)))

/-- NewStructValue of struct.go. -/
def NewStructValue (st : Struct) : Value := .mk (some (.structValue (some st)))

/-- NewListValue of struct.go. -/
def NewListValue (lv : ListValue) : Value := .mk (some (.listValue (some lv)))

mutual

/-- Model of NewValue of struct.go: the type switch over the capability
set (the invalid-type default branch is unreachable here because GoAny
carries exactly the recognized shapes). -/
def NewValue : GoAny → Except GoErr Value
  | .nil => .ok NewNullValue
  | .bool b => .ok (NewBoolValue b)
  | .int n => .ok (NewNumberValue (.finite (n : ℚ)))
  | .float f => .ok (NewNumberValue f)
  | .str s =>
    if utf8ValidString s then .ok (NewStringValue s) else .error (.invalidUTF8 s)
  | .bytes bs => .ok (NewStringValue (base64Encode bs))
  | .map m =>
    (match NewStruct m with
     | .error e => .error e
     | .ok st => .ok (NewStructValue st))
  | .slice l =>
    match NewList l with
    | .error e => .error e
    | .ok lv => .ok (NewListValue lv)

/-- Model of NewStruct of struct.go (keys validated, values via NewValue;
iteration in list order models the Go map range). -/
def NewStruct (m : List (GoStr × GoAny)) : Except GoErr Struct :=
  match newFields m with
  | .error e => .error e
  | .ok fs => .ok (.mk (some fs))

/-- Field-building loop of NewStruct. -/
def newFields : List (GoStr × GoAny) → Except GoErr (List (GoStr × Option Value))
  | [] => .ok []
  | (k, v) :: rest =>
    if utf8ValidString k then
      match NewValue v with
      | .error e => .error e
      | .ok pv =>
        match newFields rest with
        | .error e => .error e
        | .ok fs => .ok ((k, some pv) :: fs)
    else .error (.invalidUTF8 k)

/-- Model of NewList of struct.go. -/
def NewList (l : List GoAny) : Except GoErr ListValue :=
  match newElems l with
  | .error e => .error e
  | .ok vs => .ok (.mk (some vs))

/-- Element-building loop of NewList. -/
def newElems : List GoAny → Except GoErr (List (Option Value))
  | [] => .ok []
  | v :: rest =>
    match NewValue v with
    | .error e => .error e
    | .ok pv =>
      match newElems rest with
      | .error e => .error e
      | .ok vs => .ok (some pv :: vs)

end

mutual

/-- Model of (*Value).AsInterface of struct.go: non-finite numbers become
their text tokens, everything else converts structurally; the nil kind,
nil variant pointers and the null variant all give nil. -/
def Value.AsInterface : Value → GoAny
  | .mk k =>
    match k with
    | some (.numberValue (some f)) =>
      (match f with
       | .nan => .str "NaN".data
       | .inf => .str "Infinity".data
       | .negInf => .str "-Infinity".data
       | .finite q => .float (.finite q))
    | some (.stringValue (some s)) => .str s
    | some (.boolValue (some b)) => .bool b
    | some (.structValue (some st)) => .map (Struct.AsMap st)
    | some (.listValue (some lv)) => .slice (ListValue.AsSlice lv)
    | _ => .nil

/-- Model of (*Struct).AsMap (GetFields of a nil map ranges over nothing). -/
def Struct.AsMap : Struct → List (GoStr × GoAny)
  | .mk none => []
  | .mk (some fs) => asMapFields fs

/-- Entry loop of AsMap. -/
def asMapFields : List (GoStr × Option Value) → List (GoStr × GoAny)
  | [] => []
  | (k, v) :: rest => (k, entryAsInterface v) :: asMapFields rest

/-- Model of v.AsInterface on a map/slice entry: the nil-safe GetKind of a
nil *Value makes AsInterface return nil. -/
def entryAsInterface : Option Value → GoAny
  | none => .nil
  | some v => Value.AsInterface v

/-- Model of (*ListValue).AsSlice. -/
def ListValue.AsSlice : ListValue → List GoAny
  | .mk none => []
  | .mk (some vs) => asSliceElems vs

/-- Element loop of AsSlice. -/
def asSliceElems : List (Option Value) → List GoAny
  | [] => []
  | v :: rest => entryAsInterface v :: asSliceElems rest

end

mutual

/-- Normal form of a native value under the round trip through the value
model: integers become their float64 value, byte sequences their base64
text, non-finite floats their text tokens; everything else is unchanged
structurally. -/
def normNative : GoAny → GoAny
  | .nil => .nil
  | .bool b => .bool b
  | .int n => .float (.finite (n : ℚ))
  | .float (.finite q) => .float (.finite q)
  | .float .nan => .str "NaN".data
  | .float .inf => .str "Infinity".data
  | .float .negInf => .str "-Infinity".data
  | .str s => .str s
  | .bytes bs => .str (base64Encode bs)
  | .slice l => .slice (normSlice l)
  | .map m => .map (normMap m)

/-- Normal form of a native slice. -/
def normSlice : List GoAny → List GoAny
  | [] => []
  | v :: rest => normNative v :: normSlice rest

/-- Normal form of a native map. -/
def normMap : List (GoStr × GoAny) → List (GoStr × GoAny)
  | [] => []
  | (k, v) :: rest => (k, normNative v) :: normMap rest

end

/-! ## Well-formedness of value trees (the domain of the round-trip claim) -/

/-- Finite float64-representable rational: the denominator divides 2^1074
and the magnitude is below the overflow threshold.  Every non-zero such
value also exceeds the underflow threshold automatically. -/
def reprQ (q : ℚ) : Bool :=
  decide ((2 : ℕ) ^ 1074 % q.den = 0) && decide (|q| < ovfThreshold)

/-- Strictly sorted key list under the byte order json.Marshal sorts by. -/
def strictSorted : List GoStr → Bool
  | [] => true
  | [_] => true
  | a :: b :: rest => strLt a b && strictSorted (b :: rest)

mutual

/-- Well-formed Value: the kind is set and well-formed. -/
def wfValue : Value → Bool
  | .mk none => false
  | .mk (some k) => wfKind k

/-- Well-formed kind: the variant pointer is set, numbers are finite and
representable, and containers are recursively well-formed. -/
def wfKind : ValueKind → Bool
  | .nullValue p => p.isSome
  | .numberValue (some (.finite q)) => reprQ q
  | .numberValue _ => false
  | .stringValue p => p.isSome
  | .boolValue p => p.isSome
  | .structValue (some st) => wfStruct st
  | .structValue none => false
  | .listValue (some lv) => wfList lv
  | .listValue none => false

/-- Well-formed Struct: the field map is allocated, its keys strictly
sorted (the canonical representative of the unordered Go map), and every
entry a set, well-formed pointer. -/
def wfStruct : Struct → Bool
  | .mk none => false
  | .mk (some fs) => strictSorted (fs.map Prod.fst) && wfFields fs

/-- Well-formedness of a field list. -/
def wfFields : List (GoStr × Option Value) → Bool
  | [] => true
  | (_, none) :: _ => false
  | (_, some v) :: rest => wfValue v && wfFields rest

/-- Well-formed ListValue: the slice is allocated and every element a set,
well-formed pointer. -/
def wfList : ListValue → Bool
  | .mk none => false
  | .mk (some vs) => wfElems vs

/-- Well-formedness of an element list. -/
def wfElems : List (Option Value) → Bool
  | [] => true
  | none :: _ => false
  | some v :: rest => wfValue v && wfElems rest

end

mutual

/-- Nesting depth of the JSON text a Value marshals to (the scanner and
decoder fuel both track this bound). -/
def vDepth : Value → Nat
  | .mk none => 1
  | .mk (some k) => kDepth k

/-- Nesting depth by kind. -/
def kDepth : ValueKind → Nat
  | .nullValue _ => 1
  | .numberValue _ => 1
  | .stringValue _ => 1
  | .boolValue _ => 1
  | .structValue none => 1
  | .structValue (some st) => sDepth st
  | .listValue none => 1
  | .listValue (some lv) => lDepth lv

/-- Nesting depth of a Struct. -/
def sDepth : Struct → Nat
  | .mk none => 1
  | .mk (some fs) => 1 + fieldsDepth fs

/-- Nesting depth of a field list. -/
def fieldsDepth : List (GoStr × Option Value) → Nat
  | [] => 0
  | (_, v) :: rest => max (entryDepth v) (fieldsDepth rest)

/-- Nesting depth of a map/slice entry. -/
def entryDepth : Option Value → Nat
  | none => 1
  | some v => vDepth v

/-- Nesting depth of a ListValue. -/
def lDepth : ListValue → Nat
  | .mk none => 1
  | .mk (some vs) => 1 + elemsDepth vs

/-- Nesting depth of an element list. -/
def elemsDepth : List (Option Value) → Nat
  | [] => 0
  | v :: rest => max (entryDepth v) (elemsDepth rest)

end

/-- Tokens produced by the marshaller start with a significant character
that cannot be confused with a separator: this is what the surrounding
scanning contexts rely on. -/
def goodHead (tok : GoStr) : Prop :=
  ∃ c, tok.head? = some c ∧ isWS c = false ∧ c ≠ ']' ∧ c ≠ '\x7d' ∧ c ≠ ','

/-- Continuations a token can be followed by inside marshalled JSON: the
end of input or a separator/closer. -/
def stopTok (rest : GoStr) : Prop :=
  rest = [] ∨ rest.head? = some ',' ∨ rest.head? = some ']' ∨ rest.head? = some '\x7d'

/-- Discriminator for the one error shape of struct.go that carries an
object key. -/
def isKeyWrapped : GoErr → Bool
  | .badStructKey _ _ => true
  | _ => false

/-- Rendered member fragment of a struct field: quoted key, colon, value
text (the form json.Marshal emits for one map entry). -/
def fieldPart (kv : GoStr × GoStr) : GoStr := quoteString kv.1 ++ ':' :: kv.2

/-! ## Claim theorems -/

/-- Claim C1: decoding applies the ordered disambiguation policy with
quoted-string tested after number and before boolean: the quoted token
"true" decodes to the String "true", the bare token true decodes to
Bool(true), and the quoted token "9223372036854775807" decodes to the
String "9223372036854775807" (not a Number). -/
theorem claim_C1_quoted_string_disambiguation :
    Value.unmarshalJSON (.mk none) "\"true\"".data
      = (.mk (some (.stringValue (some "true".data))), none) ∧
    Value.unmarshalJSON (.mk none) "true".data
      = (.mk (some (.boolValue (some true))), none) ∧
    Value.unmarshalJSON (.mk none) "\"9223372036854775807\"".data
      = (.mk (some (.stringValue (some "9223372036854775807".data))), none) := by
  refine ⟨?_, ?_, ?_⟩ <;>
    simp [Value.unmarshalJSON, depthFuel, Value.unmarshal, parseFloat, parseBool, unquote,
          skipWS, isWS, takeDigits, isDigitC, lowerA, scanStringBody, scanEsc, hexVal, unquoteContent, unqEsc, unqU, unqShort]

/-- Claim C4: an empty or unset (nil slice) ListValue marshals to exactly
the literal brackets, an empty or unset (nil map) Struct marshals to
exactly the literal braces, and neither marshaller ever returns the
literal null. -/
theorem claim_C4_empty_containers :
    ListValue.marshalJSON (.mk none) = .ok "[]".data ∧
    ListValue.marshalJSON (.mk (some [])) = .ok "[]".data ∧
    Struct.marshalJSON (.mk none) = .ok "\x7b\x7d".data ∧
    Struct.marshalJSON (.mk (some [])) = .ok "\x7b\x7d".data ∧
    (∀ lv s, ListValue.marshalJSON lv = .ok s → s ≠ "null".data) ∧
    (∀ st s, Struct.marshalJSON st = .ok s → s ≠ "null".data) := by
  refine ⟨?_, ?_, ?_, ?_, ?_, ?_⟩
  · simp [ListValue.marshalJSON]
  · simp [ListValue.marshalJSON, marshalElems, joinComma]
  · simp [Struct.marshalJSON]
  · simp [Struct.marshalJSON, sortFields, marshalFields, joinComma]
  · intro lv s h
    match lv with
    | .mk none =>
      simp [ListValue.marshalJSON] at h
      subst h
      simp
    | .mk (some vs) =>
      simp only [ListValue.marshalJSON] at h
      cases he : marshalElems vs with
      | error e => rw [he] at h; exact absurd h (by simp)
      | ok parts =>
        rw [he] at h
        simp only [Except.ok.injEq] at h
        subst h
        simp
  · intro st s h
    match st with
    | .mk none =>
      simp [Struct.marshalJSON] at h
      subst h
      simp
    | .mk (some fs) =>
      simp only [Struct.marshalJSON] at h
      cases he : marshalFields (sortFields fs) with
      | error e => rw [he] at h; exact absurd h (by simp)
      | ok parts =>
        rw [he] at h
        simp only [Except.ok.injEq] at h
        subst h
        simp

/-- Witness for claim C4: the universally quantified never-null conjuncts
applied at concrete inputs. -/
theorem claim_C4_empty_containers_witness :
    "[]".data ≠ "null".data ∧ "\x7b\x7d".data ≠ "null".data :=
  ⟨claim_C4_empty_containers.2.2.2.2.1 (.mk none) "[]".data
     claim_C4_empty_containers.1,
   claim_C4_empty_containers.2.2.2.2.2 (.mk none) "\x7b\x7d".data
     claim_C4_empty_containers.2.2.1⟩

/-- Claim C5: AsInterface maps the Number NaN to the text string NaN,
+Infinity to Infinity, -Infinity to -Infinity, and every finite Number to
its native float64 value unchanged. -/
theorem claim_C5_nonfinite_as_interface :
    Value.AsInterface (.mk (some (.numberValue (some .nan)))) = .str "NaN".data ∧
    Value.AsInterface (.mk (some (.numberValue (some .inf)))) = .str "Infinity".data ∧
    Value.AsInterface (.mk (some (.numberValue (some .negInf)))) = .str "-Infinity".data ∧
    ∀ q : ℚ, Value.AsInterface (.mk (some (.numberValue (some (.finite q)))))
      = .float (.finite q) := by
  refine ⟨?_, ?_, ?_, fun q => ?_⟩ <;> simp [Value.AsInterface]

/-- Claim C9: MarshalJSON of a Value with a nil Kind, or with any variant
whose pointer is nil, succeeds and returns exactly the literal null. -/
theorem claim_C9_nil_kind_marshals_null :
    Value.marshalJSON (.mk none) = .ok "null".data ∧
    Value.marshalJSON (.mk (some (.nullValue none))) = .ok "null".data ∧
    Value.marshalJSON (.mk (some (.numberValue none))) = .ok "null".data ∧
    Value.marshalJSON (.mk (some (.stringValue none))) = .ok "null".data ∧
    Value.marshalJSON (.mk (some (.boolValue none))) = .ok "null".data ∧
    Value.marshalJSON (.mk (some (.structValue none))) = .ok "null".data ∧
    Value.marshalJSON (.mk (some (.listValue none))) = .ok "null".data := by
  refine ⟨?_, ?_, ?_, ?_, ?_, ?_, ?_⟩ <;> simp [Value.marshalJSON, ValueKind.marshalK]

mutual

/-- Round trip of a native value through NewValue and AsInterface: the
conversion succeeds and returns the normal form of the input. -/
theorem roundtripNative_value (x : GoAny) :
    ∃ v, NewValue x = .ok v ∧ Value.AsInterface v = normNative x := by
  match x with
  | .nil =>
    exact ⟨NewNullValue, by simp [NewValue],
           by simp [Value.AsInterface, NewNullValue, normNative]⟩
  | .bool b =>
    exact ⟨NewBoolValue b, by simp [NewValue],
           by simp [Value.AsInterface, NewBoolValue, normNative]⟩
  | .int n =>
    exact ⟨NewNumberValue (.finite (n : ℚ)), by simp [NewValue],
           by simp [Value.AsInterface, NewNumberValue, normNative]⟩
  | .float f =>
    refine ⟨NewNumberValue f, by simp [NewValue], ?_⟩
    cases f <;> simp [Value.AsInterface, NewNumberValue, normNative]
  | .str s =>
    exact ⟨NewStringValue s, by simp [NewValue, utf8ValidString],
           by simp [Value.AsInterface, NewStringValue, normNative]⟩
  | .bytes bs =>
    exact ⟨NewStringValue (base64Encode bs), by simp [NewValue],
           by simp [Value.AsInterface, NewStringValue, normNative]⟩
  | .slice l =>
    obtain ⟨vs, h1, h2⟩ := roundtripNative_elems l
    refine ⟨NewListValue (.mk (some vs)), ?_, ?_⟩
    · simp [NewValue, NewList, h1]
    · simp [Value.AsInterface, NewListValue, ListValue.AsSlice, h2, normNative]
  | .map m =>
    obtain ⟨fs, h1, h2⟩ := roundtripNative_fields m
    refine ⟨NewStructValue (.mk (some fs)), ?_, ?_⟩
    · simp [NewValue, NewStruct, h1]
    · simp [Value.AsInterface, NewStructValue, Struct.AsMap, h2, normNative]

/-- Round trip of a native slice through newElems and asSliceElems. -/
theorem roundtripNative_elems (l : List GoAny) :
    ∃ vs, newElems l = .ok vs ∧ asSliceElems vs = normSlice l := by
  match l with
  | [] => exact ⟨[], by simp [newElems], by simp [asSliceElems, normSlice]⟩
  | v :: rest =>
    obtain ⟨pv, h1, h2⟩ := roundtripNative_value v
    obtain ⟨vs, h3, h4⟩ := roundtripNative_elems rest
    exact ⟨some pv :: vs, by simp [newElems, h1, h3],
           by simp [asSliceElems, entryAsInterface, h2, h4, normSlice]⟩

/-- Round trip of a native map through newFields and asMapFields. -/
theorem roundtripNative_fields (m : List (GoStr × GoAny)) :
    ∃ fs, newFields m = .ok fs ∧ asMapFields fs = normMap m := by
  match m with
  | [] => exact ⟨[], by simp [newFields], by simp [asMapFields, normMap]⟩
  | (k, v) :: rest =>
    obtain ⟨pv, h1, h2⟩ := roundtripNative_value v
    obtain ⟨fs, h3, h4⟩ := roundtripNative_fields rest
    exact ⟨(k, some pv) :: fs, by simp [newFields, utf8ValidString, h1, h3],
           by simp [asMapFields, entryAsInterface, h2, h4, normMap]⟩

end

/-- Claim C3, counterexample: the native integer 5 is in the claimed
capability set and is neither of the two claimed exception shapes (not a
byte sequence, not a non-finite float), yet its round trip through
NewValue and AsInterface returns the float64 interface value 5, which is
not deep-equal to the int input: reflect.DeepEqual compares dynamic types
first, modelled by the GoAny constructors, and float64 and int differ.
So the claim's two exceptions are not exhaustive. -/
theorem claim_C3_counterexample :
    (∃ v, NewValue (.int 5) = .ok v ∧
       Value.AsInterface v = .float (.finite 5) ∧
       Value.AsInterface v ≠ .int 5) ∧
    (∀ bs, GoAny.int 5 ≠ .bytes bs) ∧
    GoAny.int 5 ≠ .float .nan ∧ GoAny.int 5 ≠ .float .inf ∧
    GoAny.int 5 ≠ .float .negInf :=
  ⟨⟨NewNumberValue (.finite 5), by simp [NewValue],
    by simp [Value.AsInterface, NewNumberValue],
    by simp [Value.AsInterface, NewNumberValue]⟩,
   fun bs h => GoAny.noConfusion h,
   fun h => GoAny.noConfusion h, fun h => GoAny.noConfusion h,
   fun h => GoAny.noConfusion h⟩

/-- The slice normal form is the element-wise normal form. -/
theorem normSlice_eq_map (l : List GoAny) : normSlice l = l.map normNative := by
  induction l with
  | nil => simp [normSlice]
  | cons v rest ih => simp [normSlice, ih]

/-- The map normal form is the value-wise normal form. -/
theorem normMap_eq_map (m : List (GoStr × GoAny)) :
    normMap m = m.map (fun kv => (kv.1, normNative kv.2)) := by
  induction m with
  | nil => simp [normMap]
  | cons kv rest ih =>
    match kv with
    | (k, v) => simp [normMap, ih]

/-- Claim C3 as amended: for every native value built from the capability
set, ToNative(FromNative(x)) succeeds and equals the normal form of x,
where the normal form - spelled out case by case in the remaining
conjuncts - is the identity on nil, bool, text and finite float64 inputs
and recurses through sequences and mappings, with exactly three atomic
exceptions: non-finite floats come back as their text tokens, byte
sequences as their base64 text form, and integers (the third exception
the claim omits) as their float64-typed numeric value, which is never
deep-equal to the integer input because the dynamic type changed. -/
theorem claim_C3_native_roundtrip_amended :
    (∀ x : GoAny, ∃ v, NewValue x = .ok v ∧ Value.AsInterface v = normNative x) ∧
    normNative .nil = .nil ∧
    (∀ b, normNative (.bool b) = .bool b) ∧
    (∀ s, normNative (.str s) = .str s) ∧
    (∀ q : ℚ, normNative (.float (.finite q)) = .float (.finite q)) ∧
    normNative (.float .nan) = .str "NaN".data ∧
    normNative (.float .inf) = .str "Infinity".data ∧
    normNative (.float .negInf) = .str "-Infinity".data ∧
    (∀ n : ℤ, normNative (.int n) = .float (.finite (n : ℚ))) ∧
    (∀ bs, normNative (.bytes bs) = .str (base64Encode bs)) ∧
    (∀ l, normNative (.slice l) = .slice (l.map normNative)) ∧
    (∀ m, normNative (.map m) = .map (m.map (fun kv => (kv.1, normNative kv.2)))) :=
  ⟨roundtripNative_value, by simp [normNative], fun b => by simp [normNative],
   fun s => by simp [normNative], fun q => by simp [normNative],
   by simp [normNative], by simp [normNative], by simp [normNative],
   fun n => by simp [normNative], fun bs => by simp [normNative],
   fun l => by simp [normNative, normSlice_eq_map],
   fun m => by simp [normNative, normMap_eq_map]⟩

/-- Error analysis of the array element decode loop: a failure is exactly
the first failing element's own error, propagated unchanged. -/
theorem unmarshalElems_err (fuel : Nat) (elems : List GoStr) (e : GoErr)
    (h : (unmarshalElems fuel elems).2 = some e) :
    ∃ i, ∃ hi : i < elems.length,
      (Value.unmarshal fuel (.mk none) (elems.get ⟨i, hi⟩)).2 = some e ∧
      ∀ j, (hj : j < i) →
        (Value.unmarshal fuel (.mk none) (elems.get ⟨j, by omega⟩)).2 = none := by
  induction elems with
  | nil => simp [unmarshalElems] at h
  | cons sv rest ih =>
    simp only [unmarshalElems] at h
    cases hp : (Value.unmarshal fuel (.mk none) sv).2 with
    | some e0 =>
      rw [hp] at h
      simp only [Option.some.injEq] at h
      subst h
      exact ⟨0, by simp, by simpa using hp, by omega⟩
    | none =>
      rw [hp] at h
      simp only at h
      obtain ⟨i, hi, hmain, hpre⟩ := ih h
      refine ⟨i + 1, by simpa using Nat.succ_lt_succ hi, by simpa using hmain, ?_⟩
      intro j hj
      cases j with
      | zero => simpa using hp
      | succ j0 => simpa using hpre j0 (by omega)

/-- Error analysis of the object member decode loop: a failure wraps the
first failing member's key together with that member's own error. -/
theorem unmarshalFields_err (fuel : Nat) (members : List (GoStr × GoStr)) (e : GoErr)
    (h : (unmarshalFields fuel members).2 = some e) :
    ∃ i, ∃ hi : i < members.length, ∃ ce,
      (Value.unmarshal fuel (.mk none) (members.get ⟨i, hi⟩).2).2 = some ce ∧
      e = .badStructKey (members.get ⟨i, hi⟩).1 ce ∧
      ∀ j, (hj : j < i) →
        (Value.unmarshal fuel (.mk none) (members.get ⟨j, by omega⟩).2).2 = none := by
  induction members with
  | nil => simp [unmarshalFields] at h
  | cons kv rest ih =>
    match kv with
    | (k, jv) =>
      simp only [unmarshalFields] at h
      cases hp : (Value.unmarshal fuel (.mk none) jv).2 with
      | some e0 =>
        rw [hp] at h
        simp only [Option.some.injEq] at h
        exact ⟨0, by simp, e0, by simpa using hp, h.symm, by omega⟩
      | none =>
        rw [hp] at h
        simp only at h
        obtain ⟨i, hi, ce, hmain, hkey, hpre⟩ := ih h
        refine ⟨i + 1, by simpa using Nat.succ_lt_succ hi, ce, by simpa using hmain,
                by simpa using hkey, ?_⟩
        intro j hj
        cases j with
        | zero => simpa using hp
        | succ j0 => simpa using hpre j0 (by omega)

/-- Claim C6, counterexample: decoding the array whose only element is the
out-of-range number 1e999 fails, and the error returned by the List codec
is exactly the failing element's own error - identical to what decoding
the element alone produces - with no index context added to it. -/
theorem claim_C6_counterexample :
    ListValue.unmarshalJSON (.mk none) "[1e999]".data
      = (.mk (some [some (.mk none)]), some (.unrecognizedValue "1e999".data)) ∧
    (Value.unmarshalJSON (.mk none) "1e999".data).2
      = some (.unrecognizedValue "1e999".data) := by
  have h1 : ((2 : ℚ) ^ 1024 ≤ 10 ^ 999 + 2 ^ 970) := by norm_num
  constructor <;>
    simp [ListValue.unmarshalJSON, Value.unmarshalJSON, depthFuel, ListValue.unmarshalL,
          goSplitArray, skipWS, isWS, scanItems, scanValue, scanNumber, scanFrac, scanExp,
          takeDigits, isDigitC, stripLit, unmarshalElems, Value.unmarshal, parseFloat,
          parseBool, unquote, lowerA, digitsVal, digitVal, rangeCheck, qpow10, ovfThreshold,
          tinyThreshold, goSplitObject, scanMembers, h1]

/-- Claim C6 as amended: when decoding a JSON array, a failing element
makes the List codec fail with exactly that element's own error (the
first failing one, elements before it having decoded successfully);
no index context is attached. -/
theorem claim_C6_list_error_amended (fuel : Nat) (x : ListValue) (s : GoStr)
    (elems : List GoStr) (e : GoErr)
    (hsplit : goSplitArray s = .ok elems)
    (herr : (ListValue.unmarshalL fuel x s).2 = some e) :
    ∃ i, ∃ hi : i < elems.length,
      (Value.unmarshal fuel (.mk none) (elems.get ⟨i, hi⟩)).2 = some e ∧
      ∀ j, (hj : j < i) →
        (Value.unmarshal fuel (.mk none) (elems.get ⟨j, by omega⟩)).2 = none := by
  have : (ListValue.unmarshalL fuel x s).2 = (unmarshalElems fuel elems).2 := by
    simp [ListValue.unmarshalL, hsplit]
  exact unmarshalElems_err fuel elems e (by rw [← this]; exact herr)

/-- Witness for claim C6 as amended, at the concrete array of one
out-of-range number. -/
theorem claim_C6_list_error_amended_witness :
    ∃ i, ∃ hi : i < (["1e999".data] : List GoStr).length,
      (Value.unmarshal 8 (.mk none) ((["1e999".data] : List GoStr).get ⟨i, hi⟩)).2
        = some (.unrecognizedValue "1e999".data) ∧
      ∀ j, (hj : j < i) →
        (Value.unmarshal 8 (.mk none) ((["1e999".data] : List GoStr).get ⟨j, by omega⟩)).2
          = none := by
  have h1 : ((2 : ℚ) ^ 1024 ≤ 10 ^ 999 + 2 ^ 970) := by norm_num
  refine claim_C6_list_error_amended 8 (.mk none) "[1e999]".data ["1e999".data]
    (.unrecognizedValue "1e999".data) ?_ ?_ <;>
    simp [ListValue.unmarshalL, depthFuel, goSplitArray, skipWS, isWS, scanItems, scanValue,
          scanNumber, scanFrac, scanExp, takeDigits, isDigitC, stripLit, unmarshalElems,
          Value.unmarshal, parseFloat, parseBool, unquote, lowerA, digitsVal, digitVal,
          rangeCheck, qpow10, ovfThreshold, tinyThreshold, goSplitObject, scanMembers,
          scanStringBody, scanEsc, hexVal, unquoteContent, unqEsc, unqU, unqShort, collapseKeys, insertKV, h1]

/-- Claim C7, counterexample: the malformed input with key a and a missing
member value fails at the object-splitting step with a bad StructValue
syntax error that carries no key at all, not with an error referencing
the key a. -/
theorem claim_C7_counterexample :
    Struct.unmarshalJSON (.mk none) "\x7b\"a\": \x7d".data
      = (.mk none, some (.badStructValue (.invalidChar '\x7d'))) ∧
    isKeyWrapped (.badStructValue (.invalidChar '\x7d')) = false := by
  constructor
  · simp [Struct.unmarshalJSON, depthFuel, Struct.unmarshalS, goSplitObject, skipWS, isWS,
          scanMembers, scanValue, scanStringBody, stripLit, unmarshalFields, hexVal,
          unquoteContent, collapseKeys, insertKV, isDigitC]
  · rfl

/-- Claim C7 as amended: when the object itself splits correctly and some
member's value fails to decode, the Map codec fails with a DecodeError
wrapping the first failing member's key and that member's own error; but
the malformed input with a missing member value fails earlier, at object
splitting, with a key-less bad StructValue error. -/
theorem claim_C7_struct_error_amended :
    (∀ (fuel : Nat) (x : Struct) (s : GoStr) (members : List (GoStr × GoStr)) (e : GoErr),
      goSplitObject s = .ok members →
      (Struct.unmarshalS fuel x s).2 = some e →
      ∃ i, ∃ hi : i < members.length, ∃ ce,
        (Value.unmarshal fuel (.mk none) (members.get ⟨i, hi⟩).2).2 = some ce ∧
        e = .badStructKey (members.get ⟨i, hi⟩).1 ce ∧
        ∀ j, (hj : j < i) →
          (Value.unmarshal fuel (.mk none) (members.get ⟨j, by omega⟩).2).2 = none) ∧
    (Struct.unmarshalJSON (.mk none) "\x7b\"a\": \x7d".data).2
      = some (.badStructValue (.invalidChar '\x7d')) := by
  constructor
  · intro fuel x s members e hsplit herr
    have : (Struct.unmarshalS fuel x s).2 = (unmarshalFields fuel members).2 := by
      simp [Struct.unmarshalS, hsplit]
    exact unmarshalFields_err fuel members e (by rw [← this]; exact herr)
  · exact congrArg Prod.snd claim_C7_counterexample.1

set_option maxHeartbeats 2000000 in
/-- Witness for claim C7 as amended, at the concrete object whose member
a holds an out-of-range number. -/
theorem claim_C7_struct_error_amended_witness :
    ∃ i, ∃ hi : i < ([("a".data, "1e999".data)] : List (GoStr × GoStr)).length, ∃ ce,
      (Value.unmarshal 13 (.mk none)
          (([("a".data, "1e999".data)] : List (GoStr × GoStr)).get ⟨i, hi⟩).2).2 = some ce ∧
      GoErr.badStructKey "a".data (.unrecognizedValue "1e999".data)
        = .badStructKey (([("a".data, "1e999".data)] : List (GoStr × GoStr)).get ⟨i, hi⟩).1 ce ∧
      ∀ j, (hj : j < i) →
        (Value.unmarshal 13 (.mk none)
            (([("a".data, "1e999".data)] : List (GoStr × GoStr)).get ⟨j, by omega⟩).2).2
          = none := by
  have h1 : ((2 : ℚ) ^ 1024 ≤ 10 ^ 999 + 2 ^ 970) := by norm_num
  refine claim_C7_struct_error_amended.1 13 (.mk none) "\x7b\"a\": 1e999\x7d".data
    [("a".data, "1e999".data)] (.badStructKey "a".data (.unrecognizedValue "1e999".data))
    ?_ ?_ <;>
    simp [Struct.unmarshalS, depthFuel, goSplitObject, skipWS, isWS, scanMembers, scanValue,
          scanStringBody, stripLit, unmarshalFields, hexVal, unquoteContent, collapseKeys,
          insertKV, isDigitC, scanNumber, scanFrac, scanExp, takeDigits, Value.unmarshal,
          parseFloat, parseBool, unquote, lowerA, digitsVal, digitVal, rangeCheck, qpow10,
          ovfThreshold, tinyThreshold, goSplitArray, scanItems, h1]

/-- Inversion of the ParseBool model: success means the input is one of
the twelve accepted spellings. -/
theorem parseBool_ok_cases (s : GoStr) (b : Bool) (h : parseBool s = .ok b) :
    s = "1".data ∨ s = "t".data ∨ s = "T".data ∨ s = "true".data ∨ s = "TRUE".data ∨
    s = "True".data ∨ s = "0".data ∨ s = "f".data ∨ s = "F".data ∨ s = "false".data ∨
    s = "FALSE".data ∨ s = "False".data := by
  simp only [parseBool] at h
  split at h
  · tauto
  · split at h
    · tauto
    · exact absurd h (by simp)

/-- Claim C8, counterexample: fed the bare token TRUE (which is not a
well-formed JSON value, as the second conjunct records), unmarshal
classifies it as Bool(true): ParseFloat and unquote fail on it but
ParseBool accepts the spelling TRUE. -/
theorem claim_C8_counterexample :
    Value.unmarshalJSON (.mk none) "TRUE".data
      = (.mk (some (.boolValue (some true))), none) ∧
    jsonValid "TRUE".data = false := by
  constructor <;>
    simp [Value.unmarshalJSON, depthFuel, Value.unmarshal, parseFloat, parseBool, unquote,
          skipWS, isWS, takeDigits, isDigitC, lowerA, jsonValid, scanValue, stripLit,
          goSplitArray, goSplitObject, scanStringBody]

/-- Evaluation fact used to dismiss the spelling 1 in claim C8: the bare
token 1 is taken by the earlier number branch. -/
theorem parseFloat_one : parseFloat ['1'] = .ok (.finite 1) := by
  simp [parseFloat, takeDigits, isDigitC, lowerA, digitsVal, digitVal]
  norm_num [rangeCheck, ovfThreshold, tinyThreshold]

/-- Evaluation fact used to dismiss the spelling 0 in claim C8. -/
theorem parseFloat_zero : parseFloat ['0'] = .ok (.finite 0) := by
  simp [parseFloat, takeDigits, isDigitC, lowerA, digitsVal, digitVal]
  norm_num [rangeCheck, ovfThreshold, tinyThreshold]

/-- Claim C8 as amended: on well-formed JSON value tokens (the domain the
spec assumes), a successful decode produces a Bool only for the exact
unquoted literals true and false - the other ParseBool spellings are
either not well-formed JSON (T, TRUE, ...) or taken by the earlier number
branch (1, 0).  On raw non-JSON input the restriction fails (see the
counterexample). -/
theorem claim_C8_bool_only_true_false_amended (s : GoStr) (v0 v' : Value) (b : Bool)
    (hvalid : jsonValid s = true)
    (hrun : Value.unmarshalJSON v0 s = (v', none))
    (hkind : v'.kind = some (.boolValue (some b))) :
    s = "true".data ∨ s = "false".data := by
  simp only [Value.unmarshalJSON, depthFuel, Value.unmarshal] at hrun
  split at hrun
  · -- null branch
    simp only [Prod.mk.injEq] at hrun
    rw [← hrun.1] at hkind
    simp [Value.kind] at hkind
  · split at hrun
    · -- number branch
      simp only [Prod.mk.injEq] at hrun
      rw [← hrun.1] at hkind
      simp [Value.kind] at hkind
    · split at hrun
      · -- string branch
        simp only [Prod.mk.injEq] at hrun
        rw [← hrun.1] at hkind
        simp [Value.kind] at hkind
      · split at hrun
        · -- bool branch: invert ParseBool and dismiss the non-JSON and
          -- number-taken spellings
          rename_i hpb
          have h12 := parseBool_ok_cases _ _ hpb
          rcases h12 with h | h | h | h | h | h | h | h | h | h | h | h <;> subst h <;>
            first
            | (left; rfl)
            | (right; rfl)
            | (exfalso;
               simp_all [parseFloat_one, parseFloat_zero, jsonValid, depthFuel, skipWS,
                         isWS, scanValue, stripLit, isDigitC, scanNumber, takeDigits,
                         scanFrac, scanExp])
        · split at hrun
          · -- array branch
            simp only [Prod.mk.injEq] at hrun
            rw [← hrun.1] at hkind
            simp [Value.kind] at hkind
          · split at hrun
            · -- object branch
              simp only [Prod.mk.injEq] at hrun
              rw [← hrun.1] at hkind
              simp [Value.kind] at hkind
            · -- unrecognized: the call failed, contradicting hrun
              simp at hrun

/-- Witness for claim C8 as amended, at the well-formed token true. -/
theorem claim_C8_bool_only_true_false_amended_witness :
    ("true".data : GoStr) = "true".data ∨ ("true".data : GoStr) = "false".data :=
  claim_C8_bool_only_true_false_amended "true".data (.mk none)
    (.mk (some (.boolValue (some true)))) true
    (by simp [jsonValid, depthFuel, skipWS, isWS, scanValue, stripLit])
    (by simp [Value.unmarshalJSON, depthFuel, Value.unmarshal, parseFloat, parseBool,
              unquote, skipWS, isWS, takeDigits, isDigitC, lowerA])
    (by simp [Value.kind])

/-- Inversion of whitespace membership. -/
theorem isWS_cases (c : Char) (h : isWS c = true) :
    c = ' ' ∨ c = '\t' ∨ c = '\n' ∨ c = '\r' := by
  simp only [isWS, Bool.or_eq_true, decide_eq_true_eq] at h
  tauto

/-- ParseFloat rejects any string whose first character cannot start a
number, an inf/nan spelling, or a sign. -/
theorem parseFloat_head_bad (c : Char) (rest : GoStr)
    (h1 : c ≠ '-') (h2 : c ≠ '+') (h3 : isDigitC c = false) (h4 : c ≠ '.')
    (h5 : lowerA c ≠ 'i') (h6 : c ≠ 'n') (h7 : c ≠ 'N') :
    parseFloat (c :: rest) = .error .bad := by
  simp [parseFloat, takeDigits, h1, h2, h3, h4, h5, h6, h7]

/-- ParseFloat rejects any string whose first character past leading
whitespace is a bracket-like delimiter (whitespace itself also cannot
start a number). -/
theorem parseFloat_err_of_skipWS_head (s : GoStr) (c : Char)
    (hc : (skipWS s).head? = some c)
    (h1 : c ≠ '-') (h2 : c ≠ '+') (h3 : isDigitC c = false) (h4 : c ≠ '.')
    (h5 : lowerA c ≠ 'i') (h6 : c ≠ 'n') (h7 : c ≠ 'N') :
    parseFloat s = .error .bad := by
  match s with
  | [] => simp [skipWS] at hc
  | d :: rest =>
    by_cases hd : isWS d = true
    · rcases isWS_cases d hd with h | h | h | h <;> subst h <;>
        exact parseFloat_head_bad _ rest (by decide) (by decide) (by decide) (by decide)
          (by decide) (by decide) (by decide)
    · have : skipWS (d :: rest) = d :: rest := by simp [skipWS, hd]
      rw [this] at hc
      simp only [List.head?, Option.some.injEq] at hc
      subst hc
      exact parseFloat_head_bad _ rest h1 h2 h3 h4 h5 h6 h7

/-- Inversion of a successful array split: the first character past
leading whitespace is the opening bracket. -/
theorem goSplitArray_ok_head (s : GoStr) (elems : List GoStr)
    (h : goSplitArray s = .ok elems) : (skipWS s).head? = some '[' := by
  by_cases hc : (skipWS s).head? = some '['
  · exact hc
  · simp only [goSplitArray, hc, if_false] at h
    split at h <;> simp at h

/-- Inversion of a successful object split: the first character past
leading whitespace is the opening brace. -/
theorem goSplitObject_ok_head (s : GoStr) (members : List (GoStr × GoStr))
    (h : goSplitObject s = .ok members) : (skipWS s).head? = some '\x7b' := by
  by_cases hc : (skipWS s).head? = some '\x7b'
  · exact hc
  · simp only [goSplitObject, hc, if_false] at h
    split at h <;> simp at h

/-- Unquote rejects any string whose first character past leading
whitespace is not a double quote. -/
theorem unquote_err_of_head (s : GoStr) (c : Char)
    (hc : (skipWS s).head? = some c) (hne : c ≠ '"') :
    unquote s = .error .typeMismatch := by
  have hnil : skipWS s ≠ [] := by
    intro h0
    rw [h0] at hc
    simp at hc
  have hq : ¬ ((skipWS s).head? = some '"') := by
    rw [hc]
    simp [hne]
  simp [unquote, hq, hnil]

/-- ParseBool rejects any string whose first character past leading
whitespace is a bracket-like delimiter: none of its twelve spellings
contains one. -/
theorem parseBool_err_of_head (s : GoStr) (c : Char)
    (hc : (skipWS s).head? = some c)
    (hn : c ≠ '1' ∧ c ≠ 't' ∧ c ≠ 'T' ∧ c ≠ '0' ∧ c ≠ 'f' ∧ c ≠ 'F') :
    parseBool s = .error () := by
  cases hx : parseBool s with
  | error u => cases u; rfl
  | ok b =>
    exfalso
    rcases parseBool_ok_cases _ _ hx with h | h | h | h | h | h | h | h | h | h | h | h <;>
      subst h <;> simp [skipWS, isWS] at hc <;> tauto

/-- Null-literal dismissal for container-shaped inputs. -/
theorem ne_null_of_head (s : GoStr) (c : Char)
    (hc : (skipWS s).head? = some c) (hne : c ≠ 'n') : s ≠ "null".data := by
  intro h0
  subst h0
  simp [skipWS, isWS] at hc
  exact hne hc.symm

/-- Claim C10: decoding is not atomic on error.  For a token that splits
as a JSON array (respectively object), a failing Value.unmarshal call has
nevertheless set the receiver's Kind to the ListValue (respectively
StructValue) variant holding the partially decoded container - the state
the nested container unmarshal reached - rather than leaving the
receiver unchanged. -/
theorem claim_C10_partial_decode_on_error :
    (∀ (s : GoStr) (v0 : Value) (elems : List GoStr) (e : GoErr),
       goSplitArray s = .ok elems →
       (Value.unmarshalJSON v0 s).2 = some e →
       (Value.unmarshalJSON v0 s).1
         = .mk (some (.listValue (some (ListValue.unmarshalL s.length (.mk none) s).1))) ∧
       (ListValue.unmarshalL s.length (.mk none) s).2 = some e) ∧
    (∀ (s : GoStr) (v0 : Value) (members : List (GoStr × GoStr)) (e : GoErr),
       goSplitObject s = .ok members →
       (Value.unmarshalJSON v0 s).2 = some e →
       (Value.unmarshalJSON v0 s).1
         = .mk (some (.structValue (some (Struct.unmarshalS s.length (.mk none) s).1))) ∧
       (Struct.unmarshalS s.length (.mk none) s).2 = some e) := by
  constructor
  · intro s v0 elems e hsplit herr
    have hhead := goSplitArray_ok_head s elems hsplit
    have hpf := parseFloat_err_of_skipWS_head s '[' hhead (by decide) (by decide) (by decide)
      (by decide) (by decide) (by decide) (by decide)
    have hnn := ne_null_of_head s '[' hhead (by decide)
    have hunq := unquote_err_of_head s '[' hhead (by decide)
    have hpb := parseBool_err_of_head s '[' hhead (by decide)
    have hrun : Value.unmarshalJSON v0 s
        = (.mk (some (.listValue (some (ListValue.unmarshalL s.length (.mk none) s).1))),
           (ListValue.unmarshalL s.length (.mk none) s).2) := by
      simp only [Value.unmarshalJSON, depthFuel, Value.unmarshal, hpf, hunq, hpb, hsplit,
                 if_neg hnn]
    rw [hrun] at herr
    rw [hrun]
    exact ⟨rfl, herr⟩
  · intro s v0 members e hsplit herr
    have hhead := goSplitObject_ok_head s members hsplit
    have hpf := parseFloat_err_of_skipWS_head s '\x7b' hhead (by decide) (by decide)
      (by decide) (by decide) (by decide) (by decide) (by decide)
    have hnn := ne_null_of_head s '\x7b' hhead (by decide)
    have hunq := unquote_err_of_head s '\x7b' hhead (by decide)
    have hpb := parseBool_err_of_head s '\x7b' hhead (by decide)
    have harr : goSplitArray s = .error .typeMismatch := by
      have hnil : skipWS s ≠ [] := by
        intro h0
        rw [h0] at hhead
        simp at hhead
      have hq : ¬ ((skipWS s).head? = some '[') := by
        rw [hhead]
        simp
      simp [goSplitArray, hq, hnil]
    have hrun : Value.unmarshalJSON v0 s
        = (.mk (some (.structValue (some (Struct.unmarshalS s.length (.mk none) s).1))),
           (Struct.unmarshalS s.length (.mk none) s).2) := by
      simp only [Value.unmarshalJSON, depthFuel, Value.unmarshal, hpf, hunq, hpb, harr,
                 hsplit, if_neg hnn]
    rw [hrun] at herr
    rw [hrun]
    exact ⟨rfl, herr⟩

/-- Witness for claim C10, at the concrete array of one out-of-range
number: the receiver ends as the ListValue variant holding the partial
slice whose only entry is the untouched fresh element. -/
theorem claim_C10_partial_decode_on_error_witness :
    (Value.unmarshalJSON (.mk none) "[1e999]".data).1
      = .mk (some (.listValue (some (ListValue.unmarshalL ("[1e999]".data).length
          (.mk none) "[1e999]".data).1))) ∧
    (ListValue.unmarshalL ("[1e999]".data).length (.mk none) "[1e999]".data).2
      = some (.unrecognizedValue "1e999".data) := by
  have h1 : ((2 : ℚ) ^ 1024 ≤ 10 ^ 999 + 2 ^ 970) := by norm_num
  refine claim_C10_partial_decode_on_error.1 "[1e999]".data (.mk none) ["1e999".data]
    (.unrecognizedValue "1e999".data) ?_ ?_ <;>
    simp [Value.unmarshalJSON, depthFuel, Value.unmarshal, ListValue.unmarshalL, goSplitArray,
          skipWS, isWS, scanItems, scanValue, scanNumber, scanFrac, scanExp, takeDigits,
          isDigitC, stripLit, unmarshalElems, parseFloat, parseBool, unquote, lowerA,
          digitsVal, digitVal, rangeCheck, qpow10, ovfThreshold, tinyThreshold,
          goSplitObject, scanMembers, h1]

/-! ## Infrastructure lemmas for the encode/decode round trip -/

theorem skipWS_cons_not (c : Char) (r : GoStr) (h : isWS c = false) :
    skipWS (c :: r) = c :: r := by
  simp [skipWS, h]

theorem skipWS_goodHead (tok rest : GoStr) (h : goodHead tok) :
    skipWS (tok ++ rest) = tok ++ rest := by
  obtain ⟨c, hc, hws, -, -, -⟩ := h
  match tok with
  | [] => simp at hc
  | d :: t =>
    simp only [List.head?, Option.some.injEq] at hc
    subst hc
    exact skipWS_cons_not _ _ hws

theorem stripLit_append (lit s : GoStr) : stripLit lit (lit ++ s) = some s := by
  induction lit with
  | nil => rfl
  | cons c rest ih => simp [stripLit, ih]

theorem take_diff_append (tok rest : GoStr) :
    (tok ++ rest).take ((tok ++ rest).length - rest.length) = tok := by
  have h : (tok ++ rest).length - rest.length = tok.length := by
    simp [List.length_append]
  rw [h]
  exact List.take_left tok rest

theorem isDigitC_ne (c x : Char) (h : isDigitC c = true) (hx : isDigitC x = false) :
    c ≠ x := by
  intro he
  subst he
  rw [h] at hx
  cases hx

theorem isWS_of_digit (c : Char) (h : isDigitC c = true) : isWS c = false := by
  by_contra h0
  rw [Bool.not_eq_false] at h0
  rcases isWS_cases c h0 with h1 | h1 | h1 | h1 <;> subst h1 <;> simp [isDigitC] at h

theorem lowerA_digit (c : Char) (h : isDigitC c = true) : lowerA c = c := by
  simp only [isDigitC, Bool.and_eq_true, decide_eq_true_eq] at h
  simp only [lowerA]
  rw [if_neg]
  simp only [Bool.and_eq_true, decide_eq_true_eq, not_and]
  omega

theorem goodHead_digit (c : Char) (tok : GoStr) (hc : tok.head? = some c)
    (h : isDigitC c = true) : goodHead tok :=
  ⟨c, hc, isWS_of_digit c h, isDigitC_ne c ']' h (by decide),
   isDigitC_ne c '\x7d' h (by decide), isDigitC_ne c ',' h (by decide)⟩

theorem digitVal_digitChar (d : Nat) (h : d < 10) : digitVal (digitChar d) = d := by
  interval_cases d <;> decide

theorem isDigitC_digitChar (d : Nat) (h : d < 10) : isDigitC (digitChar d) = true := by
  interval_cases d <;> decide

theorem hexVal_hexDigitL (n : Nat) (h : n < 16) : hexVal (hexDigitL n) = some n := by
  interval_cases n <;> decide

theorem natToDigits_ne_nil (n : Nat) : natToDigits n ≠ [] := by
  by_cases h : n = 0
  · subst h; decide
  · simp only [natToDigits, if_neg h]
    intro h0
    rw [List.reverse_eq_nil_iff, List.map_eq_nil_iff] at h0
    exact (Nat.digits_ne_nil_iff_ne_zero.mpr h) h0

theorem natToDigits_all_digits (n : Nat) : ∀ c ∈ natToDigits n, isDigitC c = true := by
  intro c hc
  by_cases h : n = 0
  · subst h; simp [natToDigits] at hc; subst hc; decide
  · simp only [natToDigits, if_neg h, List.mem_reverse, List.mem_map] at hc
    obtain ⟨d, hd, rfl⟩ := hc
    exact isDigitC_digitChar d (Nat.digits_lt_base (by norm_num) hd)

theorem foldl_digits_aux (l : List Nat) (hl : ∀ d ∈ l, d < 10) (a : Nat) :
    List.foldl (fun acc c => acc * 10 + digitVal c) a ((l.map digitChar).reverse)
      = a * 10 ^ l.length + Nat.ofDigits 10 l := by
  induction l generalizing a with
  | nil => simp [Nat.ofDigits]
  | cons d ls ih =>
    have hd : d < 10 := hl d (by simp)
    have hls : ∀ x ∈ ls, x < 10 := fun x hx => hl x (by simp [hx])
    simp only [List.map_cons, List.reverse_cons, List.foldl_append, List.foldl_cons,
               List.foldl_nil]
    rw [ih hls a]
    rw [digitVal_digitChar d hd]
    simp only [List.length_cons, Nat.ofDigits_cons]
    ring

theorem digitsVal_natToDigits (n : Nat) : digitsVal (natToDigits n) = n := by
  by_cases h : n = 0
  · subst h; decide
  · simp only [natToDigits, if_neg h, digitsVal]
    rw [foldl_digits_aux (Nat.digits 10 n) (fun d hd => Nat.digits_lt_base (by norm_num) hd) 0]
    simp [Nat.ofDigits_digits]

theorem natToDigits_head (n : Nat) :
    ∃ c, (natToDigits n).head? = some c ∧ isDigitC c = true := by
  cases hh : (natToDigits n).head? with
  | none => exact absurd (List.head?_eq_none_iff.mp hh) (natToDigits_ne_nil n)
  | some c =>
    refine ⟨c, rfl, natToDigits_all_digits n c ?_⟩
    exact List.mem_of_mem_head? (by rw [hh]; rfl)

theorem natToDigits_head_pos (n : Nat) (h : n ≠ 0) :
    ∃ c, (natToDigits n).head? = some c ∧ isDigitC c = true ∧ c ≠ '0' := by
  obtain ⟨c, hc, hd⟩ := natToDigits_head n
  refine ⟨c, hc, hd, ?_⟩
  have hne : Nat.digits 10 n ≠ [] := Nat.digits_ne_nil_iff_ne_zero.mpr h
  simp only [natToDigits, if_neg h] at hc
  rw [List.head?_reverse, List.getLast?_map, List.getLast?_eq_getLast _ hne] at hc
  simp only [Option.map_some', Option.some.injEq] at hc
  have hdnz : (Nat.digits 10 n).getLast hne ≠ 0 := Nat.getLast_digit_ne_zero 10 h
  have hd10 : (Nat.digits 10 n).getLast hne < 10 :=
    Nat.digits_lt_base (by norm_num) (List.getLast_mem hne)
  subst hc
  intro h0
  have hdv : digitVal (digitChar ((Nat.digits 10 n).getLast hne))
      = (Nat.digits 10 n).getLast hne := digitVal_digitChar _ hd10
  rw [h0] at hdv
  simp [digitVal] at hdv
  exact hdnz hdv.symm

theorem natToDigits_len_le (n w : Nat) (h : n < 10 ^ w) (hw : 0 < w) :
    (natToDigits n).length ≤ w := by
  by_cases h0 : n = 0
  · subst h0; simpa [natToDigits] using hw
  · simp only [natToDigits, if_neg h0, List.length_reverse, List.length_map]
    by_contra hlt
    push_neg at hlt
    have h1 : 10 ^ (Nat.digits 10 n).length ≤ 10 * n :=
      Nat.base_pow_length_digits_le 10 n (by norm_num) h0
    have h2 : 10 ^ (w + 1) ≤ 10 ^ (Nat.digits 10 n).length :=
      Nat.pow_le_pow_right (by norm_num) hlt
    have h3 : 10 ^ w * 10 ≤ n * 10 := by
      rw [← pow_succ]
      calc 10 ^ (w + 1) ≤ 10 * n := le_trans h2 h1
        _ = n * 10 := Nat.mul_comm 10 n
    have h4 : 10 ^ w ≤ n := Nat.le_of_mul_le_mul_right h3 (by norm_num)
    omega

theorem takeDigits_append (d rest : GoStr) (hd : ∀ c ∈ d, isDigitC c = true)
    (hr : ∀ c, rest.head? = some c → isDigitC c = false) :
    takeDigits (d ++ rest) = (d, rest) := by
  induction d with
  | nil =>
    match rest with
    | [] => rfl
    | c :: r => simp [takeDigits, hr c rfl]
  | cons c t ih =>
    have hc : isDigitC c = true := hd c (by simp)
    have ht : ∀ x ∈ t, isDigitC x = true := fun x hx => hd x (by simp [hx])
    simp [takeDigits, hc, ih ht]

theorem digitsVal_replicate_zero (k : Nat) (d : GoStr) :
    digitsVal (List.replicate k '0' ++ d) = digitsVal d := by
  induction k with
  | zero => rfl
  | succ k ih =>
    simp only [List.replicate_succ, List.cons_append, digitsVal, List.foldl_cons]
    have : digitVal '0' = 0 := by decide
    rw [this]
    exact ih

theorem padDigits_all_digits (m w : Nat) : ∀ c ∈ padDigits m w, isDigitC c = true := by
  intro c hc
  simp only [padDigits, List.mem_append, List.mem_replicate] at hc
  rcases hc with ⟨-, rfl⟩ | hc
  · decide
  · exact natToDigits_all_digits m c hc

theorem padDigits_ne_nil (m w : Nat) : padDigits m w ≠ [] := by
  simp only [padDigits]
  intro h
  rw [List.append_eq_nil] at h
  exact natToDigits_ne_nil m h.2

theorem digitsVal_padDigits (m w : Nat) : digitsVal (padDigits m w) = m := by
  simp only [padDigits]
  rw [digitsVal_replicate_zero, digitsVal_natToDigits]

theorem padDigits_length (m w : Nat) (h : m < 10 ^ w) (hw : 0 < w) :
    (padDigits m w).length = w := by
  have hle := natToDigits_len_le m w h hw
  simp only [padDigits, List.length_append, List.length_replicate]
  omega

theorem joinComma_cons_ne (p : GoStr) (ps : List GoStr) (h : ps ≠ []) :
    joinComma (p :: ps) = p ++ ',' :: joinComma ps := by
  match ps with
  | [] => exact absurd rfl h
  | q :: rest => rfl

theorem length_le_joinComma (ps : List GoStr) (h : ∀ p ∈ ps, p ≠ ([] : GoStr)) :
    ps.length ≤ (joinComma ps).length := by
  induction ps with
  | nil => simp [joinComma]
  | cons p rest ih =>
    cases rest with
    | nil =>
      have hp := h p (by simp)
      have : 1 ≤ p.length := by
        cases p with
        | nil => exact absurd rfl hp
        | cons c t => simp
      simpa [joinComma]
    | cons q rest2 =>
      have hp := h p (by simp)
      have h1 : 1 ≤ p.length := by
        cases p with
        | nil => exact absurd rfl hp
        | cons c t => simp
      have ih2 : rest2.length + 1 ≤ (joinComma (q :: rest2)).length := by
        simpa using ih (fun x hx => h x (List.mem_cons_of_mem _ hx))
      rw [joinComma_cons_ne p (q :: rest2) (by simp)]
      simp only [List.length_append, List.length_cons]
      omega

theorem scanStringBody_quote (r : GoStr) : scanStringBody ('"' :: r) = .ok ([], r) := by
  simp [scanStringBody]

theorem scanStringBody_cons_esc (r : GoStr) : scanStringBody ('\\' :: r) = scanEsc r := by
  simp [scanStringBody]

theorem scanStringBody_cons_lit (c : Char) (r : GoStr) (h1 : c ≠ '"') (h2 : c ≠ '\\')
    (h3 : ¬ (c.toNat < 32)) :
    scanStringBody (c :: r) =
      match scanStringBody r with
      | .ok p => .ok (c :: p.1, p.2)
      | .error er => .error er := by
  simp [scanStringBody, h1, h2, h3]

theorem scanEsc_short (e : Char) (r : GoStr)
    (he : e = '"' ∨ e = '\\' ∨ e = '/' ∨ e = 'b' ∨ e = 'f' ∨ e = 'n' ∨ e = 'r' ∨ e = 't') :
    scanEsc (e :: r) =
      match scanStringBody r with
      | .ok p => .ok ('\\' :: e :: p.1, p.2)
      | .error er => .error er := by
  simp [scanEsc, he]

theorem uEscape_unq (c : Char) (t : GoStr) (hlt : c.toNat < 55296) :
    unquoteContent (uEscape c.toNat ++ t) = c :: unquoteContent t := by
  have h1 : c.toNat / 4096 % 16 < 16 := Nat.mod_lt _ (by norm_num)
  have h2 : c.toNat / 256 % 16 < 16 := Nat.mod_lt _ (by norm_num)
  have h3 : c.toNat / 16 % 16 < 16 := Nat.mod_lt _ (by norm_num)
  have h4 : c.toNat % 16 < 16 := Nat.mod_lt _ (by norm_num)
  have hre : c.toNat / 4096 % 16 * 4096 + c.toNat / 256 % 16 * 256
      + c.toNat / 16 % 16 * 16 + c.toNat % 16 = c.toNat := by omega
  have hno : ¬ (55296 ≤ c.toNat ∧ c.toNat ≤ 56319) := by omega
  have hno2 : ¬ (56320 ≤ c.toNat ∧ c.toNat ≤ 57343) := by omega
  simp only [uEscape, List.cons_append]
  rw [unquoteContent]
  rw [if_pos rfl]
  rw [unqEsc]
  rw [if_pos rfl]
  rw [unqU]
  simp only [hexVal_hexDigitL _ h1, hexVal_hexDigitL _ h2, hexVal_hexDigitL _ h3,
             hexVal_hexDigitL _ h4, hre]
  rw [if_neg hno, if_neg hno2, Char.ofNat_toNat]
  simp

theorem uEscape_scan (m : Nat) (t : GoStr) (hm : m < 65536) :
    scanStringBody (uEscape m ++ t) =
      match scanStringBody t with
      | .ok p => .ok (uEscape m ++ p.1, p.2)
      | .error er => .error er := by
  have h1 : m / 4096 % 16 < 16 := Nat.mod_lt _ (by norm_num)
  have h2 : m / 256 % 16 < 16 := Nat.mod_lt _ (by norm_num)
  have h3 : m / 16 % 16 < 16 := Nat.mod_lt _ (by norm_num)
  have h4 : m % 16 < 16 := Nat.mod_lt _ (by norm_num)
  simp only [uEscape, List.cons_append, scanStringBody_cons_esc]
  rw [scanEsc]
  rw [if_neg (by decide), if_pos rfl]
  simp only [scanU, hexVal_hexDigitL _ h1, hexVal_hexDigitL _ h2, hexVal_hexDigitL _ h3,
             hexVal_hexDigitL _ h4, Option.isSome_some, and_self, if_true]
  cases hst : scanStringBody t with
  | ok p => simp [hst]
  | error er => simp [hst]

theorem unquoteContent_escapeContent (s : GoStr) :
    unquoteContent (escapeContent s) = s := by
  induction s with
  | nil => simp [escapeContent, unquoteContent]
  | cons c t ih =>
    have hec : escapeContent (c :: t) = escapeChar c ++ escapeContent t := by
      simp [escapeContent]
    rw [hec]
    by_cases h1 : c = '"'
    · subst h1; simpa [escapeChar, unquoteContent, unqEsc, unqShort] using ih
    · by_cases h2 : c = '\\'
      · subst h2; simpa [escapeChar, unquoteContent, unqEsc, unqShort] using ih
      · by_cases h3 : c = '\n'
        · subst h3; simpa [escapeChar, unquoteContent, unqEsc, unqShort] using ih
        · by_cases h4 : c = '\r'
          · subst h4; simpa [escapeChar, unquoteContent, unqEsc, unqShort] using ih
          · by_cases h5 : c = '\t'
            · subst h5; simpa [escapeChar, unquoteContent, unqEsc, unqShort] using ih
            · by_cases h6 : c.toNat < 32
              · have he : escapeChar c = uEscape c.toNat := by
                  simp [escapeChar, h1, h2, h3, h4, h5, h6]
                rw [he, uEscape_unq c _ (by omega), ih]
              · by_cases h7 : c = '<' ∨ c = '>' ∨ c = '&'
                · have he : escapeChar c = uEscape c.toNat := by
                    simp [escapeChar, h1, h2, h3, h4, h5, h6, h7]
                  have hb : c.toNat < 55296 := by
                    rcases h7 with h | h | h <;> subst h <;> decide
                  rw [he, uEscape_unq c _ hb, ih]
                · by_cases h8 : c.toNat = 8232 ∨ c.toNat = 8233
                  · have he : escapeChar c = uEscape c.toNat := by
                      simp [escapeChar, h1, h2, h3, h4, h5, h6, h7, h8]
                    have hb : c.toNat < 55296 := by omega
                    rw [he, uEscape_unq c _ hb, ih]
                  · have he : escapeChar c = [c] := by
                      simp [escapeChar, h1, h2, h3, h4, h5, h6, h7, h8]
                    rw [he]
                    simpa [unquoteContent, h2] using ih

theorem scanStringBody_escapeContent (s rest : GoStr) :
    scanStringBody (escapeContent s ++ '"' :: rest) = .ok (escapeContent s, rest) := by
  induction s with
  | nil => simp [escapeContent, scanStringBody]
  | cons c t ih =>
    have hec : escapeContent (c :: t) = escapeChar c ++ escapeContent t := by
      simp [escapeContent]
    rw [hec]
    by_cases h1 : c = '"'
    · subst h1
      have hsh := scanEsc_short '"' (escapeContent t ++ '"' :: rest) (by decide)
      simp only [escapeChar, reduceIte, List.cons_append, List.nil_append,
                 scanStringBody_cons_esc, hsh, ih]
    · by_cases h2 : c = '\\'
      · subst h2
        have he : escapeChar '\\' = ['\\', '\\'] := rfl
        have hsh := scanEsc_short '\\' (escapeContent t ++ '"' :: rest) (by decide)
        simp only [he, List.cons_append, List.nil_append, scanStringBody_cons_esc, hsh, ih]
      · by_cases h3 : c = '\n'
        · subst h3
          have he : escapeChar '\n' = ['\\', 'n'] := rfl
          have hsh := scanEsc_short 'n' (escapeContent t ++ '"' :: rest) (by decide)
          simp only [he, List.cons_append, List.nil_append, scanStringBody_cons_esc, hsh, ih]
        · by_cases h4 : c = '\r'
          · subst h4
            have he : escapeChar '\r' = ['\\', 'r'] := rfl
            have hsh := scanEsc_short 'r' (escapeContent t ++ '"' :: rest) (by decide)
            simp only [he, List.cons_append, List.nil_append, scanStringBody_cons_esc, hsh, ih]
          · by_cases h5 : c = '\t'
            · subst h5
              have he : escapeChar '\t' = ['\\', 't'] := rfl
              have hsh := scanEsc_short 't' (escapeContent t ++ '"' :: rest) (by decide)
              simp only [he, List.cons_append, List.nil_append, scanStringBody_cons_esc, hsh, ih]
            · by_cases h6 : c.toNat < 32
              · have he : escapeChar c = uEscape c.toNat := by
                  simp [escapeChar, h1, h2, h3, h4, h5, h6]
                rw [he, List.append_assoc, uEscape_scan c.toNat _ (by omega)]
                simp [ih]
              · by_cases h7 : c = '<' ∨ c = '>' ∨ c = '&'
                · have he : escapeChar c = uEscape c.toNat := by
                    simp [escapeChar, h1, h2, h3, h4, h5, h6, h7]
                  have hb : c.toNat < 65536 := by
                    rcases h7 with h | h | h <;> subst h <;> decide
                  rw [he, List.append_assoc, uEscape_scan c.toNat _ hb]
                  simp [ih]
                · by_cases h8 : c.toNat = 8232 ∨ c.toNat = 8233
                  · have he : escapeChar c = uEscape c.toNat := by
                      simp [escapeChar, h1, h2, h3, h4, h5, h6, h7, h8]
                    have hb : c.toNat < 65536 := by omega
                    rw [he, List.append_assoc, uEscape_scan c.toNat _ hb]
                    simp [ih]
                  · have he : escapeChar c = [c] := by
                      simp [escapeChar, h1, h2, h3, h4, h5, h6, h7, h8]
                    rw [he]
                    simp only [List.cons_append, List.nil_append,
                               scanStringBody_cons_lit c _ h1 h2 h6, ih]

theorem unquote_quoteString (str : GoStr) : unquote (quoteString str) = .ok str := by
  have hq : quoteString str = '"' :: (escapeContent str ++ '"' :: ([] : GoStr)) := by
    simp [quoteString]
  rw [hq, unquote]
  have hiw : isWS '"' = false := rfl
  simp only [skipWS, hiw, Bool.false_eq_true, if_false, List.head?, Option.some.injEq,
             reduceIte, List.tail, scanStringBody_escapeContent, unquoteContent_escapeContent]

/-- Decimal digit strings are fixed points of ASCII lower-casing. -/
theorem map_lowerA_digits (d : GoStr) (h : ∀ c ∈ d, isDigitC c = true) :
    d.map lowerA = d := by
  induction d with
  | nil => rfl
  | cons c rest ih =>
    simp only [List.map_cons, lowerA_digit c (h c (by simp)), List.cons.injEq, true_and]
    exact ih (fun x hx => h x (by simp [hx]))

/-- The exponent search of the printer succeeds on every float64-representable
denominator (it divides 2^1074, hence 10^1074, within the search range). -/
theorem pow10Exp_spec (d : Nat) (hd : 0 < d) (h : (2:ℕ) ^ 1074 % d = 0) :
    ∃ t, pow10Exp d = some t ∧ 10 ^ t % d = 0 := by
  have hdvd : d ∣ 10 ^ 1074 :=
    (Nat.dvd_of_mod_eq_zero h).trans (pow_dvd_pow_of_dvd (by norm_num) 1074)
  have hsome : (pow10Exp d).isSome := by
    rw [pow10Exp, List.find?_isSome]
    refine ⟨1074, by simp, ?_⟩
    obtain ⟨k, hk⟩ := hdvd
    simp [hk, Nat.mul_mod_right]
  obtain ⟨t, ht⟩ := Option.isSome_iff_exists.mp hsome
  exact ⟨t, ht, by simpa using List.find?_some ht⟩

/-- Absolute value of a rational through its numerator and denominator. -/
theorem rat_abs_eq (q : ℚ) : |q| = (q.num.natAbs : ℚ) / (q.den : ℚ) := by
  conv_lhs => rw [← Rat.num_div_den q]
  rw [abs_div, Int.cast_natAbs, Int.cast_abs,
      abs_of_nonneg (by positivity : (0:ℚ) ≤ (q.den : ℚ))]

/-- A non-zero rational whose denominator is at most 2^n has magnitude at
least 1/2^(n+1). -/
theorem tiny_aux (q : ℚ) (n : ℕ) (hq0 : q ≠ 0) (hden : q.den ≤ 2 ^ n) :
    1 / 2 ^ (n + 1) ≤ |q| := by
  have h1 : (1:ℚ) ≤ (q.num.natAbs : ℚ) := by
    have hn : q.num ≠ 0 := Rat.num_ne_zero.mpr hq0
    exact_mod_cast Nat.one_le_iff_ne_zero.mpr (Int.natAbs_ne_zero.mpr hn)
  have h3 : (0:ℚ) < (q.den : ℚ) := by
    exact_mod_cast Nat.pos_of_ne_zero q.den_nz
  have h4 : (q.den : ℚ) ≤ (2:ℚ) ^ n := by exact_mod_cast hden
  have h5 : (0:ℚ) < 2 ^ (n + 1) := by positivity
  rw [rat_abs_eq q, div_le_div_iff h5 h3]
  have h6 : (2:ℚ) ^ n ≤ 2 ^ (n + 1) := by
    apply pow_le_pow_right (by norm_num)
    omega
  calc (1:ℚ) * q.den = (q.den : ℚ) := one_mul _
    _ ≤ 2 ^ n := h4
    _ ≤ 2 ^ (n + 1) := h6
    _ = 1 * 2 ^ (n + 1) := (one_mul _).symm
    _ ≤ (q.num.natAbs : ℚ) * 2 ^ (n + 1) := by
        exact mul_le_mul_of_nonneg_right h1 (le_of_lt h5)

/-- The ParseFloat range check passes every representable value: below the
overflow threshold by hypothesis, and any non-zero representable value is at
least 1/2^1074, above the underflow threshold. -/
theorem rangeCheck_repr (q : ℚ) (hden : (2:ℕ) ^ 1074 % q.den = 0)
    (hovf : |q| < ovfThreshold) : rangeCheck q = .ok (.finite q) := by
  rw [rangeCheck, if_neg (not_le.mpr hovf), if_neg]
  push_neg
  intro hq0
  rw [tinyThreshold]
  have hd1 : q.den ≤ 2 ^ 1074 :=
    Nat.le_of_dvd (by positivity) (Nat.dvd_of_mod_eq_zero hden)
  have := tiny_aux q 1074 hq0 hd1
  simpa using this

/-- ParseFloat on an integer-dot-fraction digit token (with either sign)
computes the exact decimal value and range-checks it. -/
theorem parseFloat_unsigned (d ft : GoStr) (r : ℚ)
    (hd_all : ∀ c ∈ d, isDigitC c = true)
    (hd_ne : d ≠ [])
    (hft : (ft = [] ∧ r = (digitsVal d : ℚ)) ∨
           (∃ B w, 0 < w ∧ B < 10 ^ w ∧ ft = '.' :: padDigits B w ∧
             r = (digitsVal d : ℚ) + (B : ℚ) / 10 ^ w)) :
    parseFloat (d ++ ft) = rangeCheck r ∧
    parseFloat ('-' :: (d ++ ft)) = rangeCheck (-r) := by
  match d, hd_ne with
  | ch :: dt, _ =>
  have hch : isDigitC ch = true := hd_all ch (List.mem_cons_self ch dt)
  have hm1 : ch ≠ '-' := isDigitC_ne ch '-' hch (by decide)
  have hm2 : ch ≠ '+' := isDigitC_ne ch '+' hch (by decide)
  have hlow : (ch :: (dt ++ ft)).map lowerA = ch :: (dt ++ ft) := by
    have : ((ch :: dt) ++ ft).map lowerA = (ch :: dt) ++ ft := by
      rcases hft with ⟨rfl, -⟩ | ⟨B, w, hw, hB, rfl, -⟩
      · simpa using map_lowerA_digits (ch :: dt) hd_all
      · rw [List.map_append, map_lowerA_digits (ch :: dt) hd_all, List.map_cons,
            map_lowerA_digits _ (padDigits_all_digits B w)]
        simp [show lowerA '.' = '.' from by decide]
    simpa using this
  have hne_tok : ∀ (lit : GoStr) (c0 : Char), lit.head? = some c0 → isDigitC c0 = false →
      ch :: (dt ++ ft) ≠ lit := by
    intro lit c0 hl hc0 heq
    have h0 : some ch = some c0 := by rw [← hl, ← heq]; rfl
    simp only [Option.some.injEq] at h0
    subst h0
    rw [hch] at hc0
    exact Bool.noConfusion hc0
  have hinf1 : ch :: (dt ++ ft) ≠ "inf".data := hne_tok _ 'i' rfl (by decide)
  have hinf2 : ch :: (dt ++ ft) ≠ "infinity".data := hne_tok _ 'i' rfl (by decide)
  have hn1 : ch ≠ 'n' := isDigitC_ne ch 'n' hch (by decide)
  have hn2 : ch ≠ 'N' := isDigitC_ne ch 'N' hch (by decide)
  have hft_head : ∀ c, ft.head? = some c → isDigitC c = false := by
    rcases hft with ⟨rfl, -⟩ | ⟨B, w, hw, hB, rfl, -⟩
    · intro c hc; simp at hc
    · intro c hc
      simp only [List.head?_cons, Option.some.injEq] at hc
      subst hc; decide
  have htake : takeDigits (ch :: (dt ++ ft)) = (ch :: dt, ft) := by
    simpa using takeDigits_append (ch :: dt) ft hd_all hft_head
  constructor
  · simp only [List.cons_append, parseFloat, hm1, hm2, hn1, hn2, hlow, hinf1, hinf2,
               false_and, false_or, or_false, if_false, htake, decide_eq_true_eq]
    rcases hft with ⟨rfl, rfl⟩ | ⟨B, w, hw, hB, rfl, rfl⟩
    · simp [digitsVal, hm1]
    · have htake2 : takeDigits (padDigits B w) = (padDigits B w, []) := by
        simpa using takeDigits_append (padDigits B w) [] (padDigits_all_digits B w)
          (by intro c hc; simp at hc)
      simp [htake2, digitsVal_padDigits, padDigits_length B w hB hw, hm1,
            padDigits_ne_nil]
  · rcases hft with ⟨rfl, rfl⟩ | ⟨B, w, hw, hB, rfl, rfl⟩
    · simp only [List.append_nil] at hlow hinf1 hinf2 htake
      simp [parseFloat, hm1, hm2, hn1, hn2, hlow, hinf1, hinf2, htake, digitsVal]
    · have htake2 : takeDigits (padDigits B w) = (padDigits B w, []) := by
        simpa using takeDigits_append (padDigits B w) [] (padDigits_all_digits B w)
          (by intro c hc; simp at hc)
      simp [parseFloat, hm1, hm2, hn1, hn2, hlow, hinf1, hinf2, htake, htake2,
            digitsVal_padDigits, padDigits_length B w hB hw, padDigits_ne_nil]

set_option maxRecDepth 16000 in
/-- ParseFloat maps the printer output of a representable value back to
exactly that value: the round-trip contract of the number branch. -/
theorem parseFloat_formatFloat (q : ℚ) (h : reprQ q = true) :
    parseFloat (formatFloat q) = .ok (.finite q) := by
  simp only [reprQ, Bool.and_eq_true, decide_eq_true_eq] at h
  obtain ⟨hden, hovf⟩ := h
  obtain ⟨t, hpt, htm⟩ := pow10Exp_spec q.den (Nat.pos_of_ne_zero q.den_nz) hden
  have hdvd : q.den ∣ 10 ^ t := Nat.dvd_of_mod_eq_zero htm
  have hd0 : (q.den : ℚ) ≠ 0 := by
    exact_mod_cast (Nat.pos_of_ne_zero q.den_nz).ne'
  have hm : ((q.num.natAbs * (10 ^ t / q.den) : ℕ) : ℚ) = |q| * 10 ^ t := by
    have hcast : ((10 ^ t / q.den : ℕ) : ℚ) = (10 ^ t : ℚ) / (q.den : ℚ) := by
      rw [Nat.cast_div hdvd hd0]
      push_cast
      ring
    rw [rat_abs_eq q]
    push_cast [hcast]
    field_simp
  have habs_pos : ¬ q.num < 0 → |q| = q := fun h0 =>
    abs_of_nonneg (Rat.num_nonneg.mp (not_lt.mp h0))
  have habs_neg : q.num < 0 → -|q| = q := fun h0 => by
    have hq : q < 0 := by
      by_contra hc
      exact absurd (Rat.num_nonneg.mpr (not_lt.mp hc)) (not_le.mpr h0)
    rw [abs_of_neg hq]
    ring
  by_cases ht0 : t = 0
  · subst ht0
    have harg : (|q| : ℚ) = ((digitsVal (natToDigits (q.num.natAbs * (10 ^ 0 / q.den)))) : ℚ) := by
      rw [digitsVal_natToDigits]
      simpa using hm.symm
    have hu := parseFloat_unsigned (natToDigits (q.num.natAbs * (10 ^ 0 / q.den))) [] (|q|)
      (natToDigits_all_digits _) (natToDigits_ne_nil _) (Or.inl ⟨rfl, harg⟩)
    by_cases hneg : q.num < 0
    · simp only [formatFloat, hpt, if_pos hneg, reduceIte]
      have h2 := hu.2
      simp only [List.append_nil] at h2
      simp only [List.singleton_append, List.nil_append, List.cons_append,
                 List.append_assoc] at h2 ⊢
      rw [h2, habs_neg hneg]
      exact rangeCheck_repr q hden hovf
    · simp only [formatFloat, hpt, if_neg hneg, reduceIte]
      have h1 := hu.1
      simp only [List.append_nil] at h1
      simp only [List.nil_append, List.singleton_append, List.cons_append,
                 List.append_assoc] at h1 ⊢
      rw [h1, habs_pos hneg]
      exact rangeCheck_repr q hden hovf
  · have hwpos : 0 < t := Nat.pos_of_ne_zero ht0
    have hB : q.num.natAbs * (10 ^ t / q.den) % 10 ^ t < 10 ^ t :=
      Nat.mod_lt _ (by positivity)
    have hr : ((q.num.natAbs * (10 ^ t / q.den) / 10 ^ t : ℕ) : ℚ)
        + ((q.num.natAbs * (10 ^ t / q.den) % 10 ^ t : ℕ) : ℚ) / (10:ℚ) ^ t = |q| := by
      have hdm := Nat.div_add_mod (q.num.natAbs * (10 ^ t / q.den)) (10 ^ t)
      have hcast : (10:ℚ) ^ t * ((q.num.natAbs * (10 ^ t / q.den) / 10 ^ t : ℕ) : ℚ)
          + ((q.num.natAbs * (10 ^ t / q.den) % 10 ^ t : ℕ) : ℚ)
          = ((q.num.natAbs * (10 ^ t / q.den) : ℕ) : ℚ) := by
        exact_mod_cast hdm
      rw [hm] at hcast
      have hp : ((10:ℚ) ^ t) ≠ 0 := by positivity
      field_simp
      linarith [hcast]
    have harg : (|q| : ℚ)
        = ((digitsVal (natToDigits (q.num.natAbs * (10 ^ t / q.den) / 10 ^ t))) : ℚ)
          + ((q.num.natAbs * (10 ^ t / q.den) % 10 ^ t : ℕ) : ℚ) / (10:ℚ) ^ t := by
      rw [digitsVal_natToDigits]
      exact hr.symm
    have hu := parseFloat_unsigned (natToDigits (q.num.natAbs * (10 ^ t / q.den) / 10 ^ t))
      ('.' :: padDigits (q.num.natAbs * (10 ^ t / q.den) % 10 ^ t) t) (|q|)
      (natToDigits_all_digits _) (natToDigits_ne_nil _)
      (Or.inr ⟨q.num.natAbs * (10 ^ t / q.den) % 10 ^ t, t, hwpos, hB, rfl, harg⟩)
    by_cases hneg : q.num < 0
    · simp only [formatFloat, hpt, if_pos hneg, if_neg ht0]
      have hu2 := hu.2
      simp only [List.singleton_append, List.nil_append, List.cons_append,
                 List.append_assoc] at hu2 ⊢
      rw [hu2, habs_neg hneg]
      exact rangeCheck_repr q hden hovf
    · simp only [formatFloat, hpt, if_neg hneg, if_neg ht0]
      have hu1 := hu.1
      simp only [List.singleton_append, List.nil_append, List.cons_append,
                 List.append_assoc] at hu1 ⊢
      rw [hu1, habs_pos hneg]
      exact rangeCheck_repr q hden hovf

/-- The json scanner consumes exactly an integer-dot-fraction number token
(with either sign) and returns the rest when the rest cannot extend it. -/
theorem scanNumber_digits (A : Nat) (ft rest : GoStr)
    (hft : ft = [] ∨ ∃ B w, ft = '.' :: padDigits B w)
    (hrest : ∀ c, rest.head? = some c →
       isDigitC c = false ∧ c ≠ '.' ∧ c ≠ 'e' ∧ c ≠ 'E') :
    scanNumber (natToDigits A ++ ft ++ rest) = .ok rest ∧
    scanNumber ('-' :: (natToDigits A ++ ft ++ rest)) = .ok rest := by
  have hftr_head : ∀ x, (ft ++ rest).head? = some x → isDigitC x = false := by
    rcases hft with rfl | ⟨B, w, rfl⟩
    · intro x hx
      exact (hrest x (by simpa using hx)).1
    · intro x hx
      simp only [List.cons_append, List.head?_cons, Option.some.injEq] at hx
      subst hx
      decide
  have hscanFrac : scanFrac (ft ++ rest) = .ok rest := by
    rcases hft with rfl | ⟨B, w, rfl⟩
    · simp only [List.nil_append, scanFrac]
      rw [if_neg]
      cases hh : rest.head? with
      | none => simp [hh]
      | some c =>
        have := (hrest c hh).2.1
        simp [hh, this]
    · have htk : takeDigits (padDigits B w ++ rest) = (padDigits B w, rest) :=
        takeDigits_append _ _ (padDigits_all_digits B w) (fun c hc => (hrest c hc).1)
      simp only [List.cons_append, scanFrac, List.head?_cons, List.tail_cons, reduceIte, htk]
      simp [padDigits_ne_nil]
  have hscanExp : scanExp rest = .ok rest := by
    rw [scanExp, if_neg]
    rintro (h | h) <;>
      (cases hh : rest.head? with
       | none => rw [hh] at h; exact Option.noConfusion h
       | some c =>
         rw [hh] at h
         simp only [Option.some.injEq] at h
         subst h
         first
         | exact absurd rfl (hrest _ hh).2.2.1
         | exact absurd rfl (hrest _ hh).2.2.2)
  have hcore : ∀ s1 : GoStr, s1 = natToDigits A ++ ft ++ rest →
      (match s1 with
       | [] => Except.error ScanErr.unexpectedEnd
       | c :: cs =>
         if isDigitC c then
           let afterInt : GoStr := if c = '0' then cs else (takeDigits s1).2
           match scanFrac afterInt with
           | .ok r2 => scanExp r2
           | .error er => Except.error er
         else Except.error (ScanErr.invalidChar c)) = .ok rest := by
    intro s1 hs1
    by_cases hA : A = 0
    · subst hA
      have h0 : natToDigits 0 = ['0'] := rfl
      rw [h0] at hs1
      subst hs1
      simp only [List.cons_append, List.nil_append]
      simp only [show isDigitC '0' = true from rfl, if_true, reduceIte, hscanFrac, hscanExp]
    · obtain ⟨c, hc, hcd, hc0⟩ := natToDigits_head_pos A hA
      obtain ⟨dt, hdt⟩ : ∃ dt, natToDigits A = c :: dt := by
        cases hnd : natToDigits A with
        | nil => rw [hnd] at hc; exact Option.noConfusion hc
        | cons x xs =>
          rw [hnd] at hc
          simp only [List.head?_cons, Option.some.injEq] at hc
          exact ⟨xs, by rw [hc]⟩
      have htk : takeDigits ((c :: dt) ++ (ft ++ rest)) = (c :: dt, ft ++ rest) :=
        takeDigits_append (c :: dt) (ft ++ rest)
          (by rw [← hdt]; exact natToDigits_all_digits A) hftr_head
      rw [hdt] at hs1
      subst hs1
      simp only [List.cons_append, List.append_assoc] at htk ⊢
      simp only [hcd, if_true, if_neg hc0, htk, hscanFrac, hscanExp]
  constructor
  · have hne : natToDigits A ++ ft ++ rest ≠ [] := by
      intro h0
      rw [List.append_assoc] at h0
      rcases List.append_eq_nil.mp h0 with ⟨h1, -⟩
      exact natToDigits_ne_nil A h1
    have hh : (natToDigits A ++ ft ++ rest).head? ≠ some '-' := by
      obtain ⟨c, hc, hcd⟩ := natToDigits_head A
      obtain ⟨dt, hdt⟩ : ∃ dt, natToDigits A = c :: dt := by
        cases hnd : natToDigits A with
        | nil => rw [hnd] at hc; exact Option.noConfusion hc
        | cons x xs =>
          rw [hnd] at hc
          simp only [List.head?_cons, Option.some.injEq] at hc
          exact ⟨xs, by rw [hc]⟩
      rw [hdt]
      simp only [List.cons_append, List.head?_cons, ne_eq, Option.some.injEq]
      exact isDigitC_ne c '-' hcd (by decide)
    rw [scanNumber]
    rw [if_neg hh]
    exact hcore _ rfl
  · rw [scanNumber]
    simp only [List.head?_cons, if_pos rfl, List.tail_cons]
    exact hcore _ rfl

/-- String order is irreflexive. -/
theorem strLt_irrefl (a : GoStr) : strLt a a = false := by
  induction a with
  | nil => rfl
  | cons c rest ih => simp [strLt, ih]

/-- String order implies inequality. -/
theorem strLt_ne (a b : GoStr) (h : strLt a b = true) : a ≠ b := by
  intro he
  subst he
  rw [strLt_irrefl] at h
  exact Bool.noConfusion h

/-- String order is transitive. -/
theorem strLt_trans (a b c : GoStr) (h1 : strLt a b = true) (h2 : strLt b c = true) :
    strLt a c = true := by
  induction a generalizing b c with
  | nil =>
    match b, c with
    | [], _ => simp [strLt] at h1
    | _ :: _, [] => simp [strLt] at h2
    | _ :: _, _ :: _ => simp [strLt]
  | cons x xs ih =>
    match b, c with
    | [], _ => simp [strLt] at h1
    | _ :: _, [] => simp [strLt] at h2
    | y :: ys, z :: zs =>
      simp only [strLt, Bool.or_eq_true, Bool.and_eq_true, decide_eq_true_eq] at h1 h2 ⊢
      rcases h1 with hlt1 | ⟨heq1, hs1⟩ <;> rcases h2 with hlt2 | ⟨heq2, hs2⟩
      · left; omega
      · subst heq2; left; exact hlt1
      · subst heq1; left; exact hlt2
      · subst heq1; subst heq2; right; exact ⟨rfl, ih ys zs hs1 hs2⟩

/-- In a strictly sorted key list the head is below every later key. -/
theorem strictSorted_head_lt (k : GoStr) (ks : List GoStr)
    (h : strictSorted (k :: ks) = true) : ∀ k2 ∈ ks, strLt k k2 = true := by
  induction ks generalizing k with
  | nil => simp
  | cons k1 krest ih =>
    simp only [strictSorted, Bool.and_eq_true] at h
    intro k2 hk2
    rcases List.mem_cons.mp hk2 with rfl | hk2
    · exact h.1
    · exact strLt_trans _ _ _ h.1 (ih k1 h.2 k2 hk2)

/-- Strictly sorted key lists have no duplicates. -/
theorem strictSorted_nodup (ks : List GoStr) (h : strictSorted ks = true) :
    ks.Nodup := by
  induction ks with
  | nil => exact List.nodup_nil
  | cons k rest ih =>
    have htail : strictSorted rest = true := by
      match rest with
      | [] => rfl
      | k1 :: r2 =>
        simp only [strictSorted, Bool.and_eq_true] at h
        exact h.2
    refine List.nodup_cons.mpr ⟨?_, ih htail⟩
    intro hmem
    have hlt := strictSorted_head_lt k rest h k hmem
    rw [strLt_irrefl] at hlt
    exact Bool.noConfusion hlt

/-- Insertion sort fixes an already strictly sorted field list. -/
theorem strictSorted_sortFields {α : Type} (fs : List (GoStr × α))
    (h : strictSorted (fs.map Prod.fst) = true) : sortFields fs = fs := by
  induction fs with
  | nil => rfl
  | cons p rest ih =>
    match rest with
    | [] => simp [sortFields, insertSorted]
    | q :: rest2 =>
      simp only [List.map_cons, strictSorted, Bool.and_eq_true] at h
      have htail : strictSorted ((q :: rest2).map Prod.fst) = true := by
        simpa using h.2
      rw [sortFields, ih htail, insertSorted, if_pos h.1]

/-- Map assignment with a fresh key appends the entry. -/
theorem insertKV_not_mem {α : Type} (acc : List (GoStr × α)) (k : GoStr) (v : α)
    (h : k ∉ acc.map Prod.fst) : insertKV acc k v = acc ++ [(k, v)] := by
  induction acc with
  | nil => rfl
  | cons p rest ih =>
    simp only [List.map_cons, List.mem_cons, not_or] at h
    have hne : ¬ (p.1 = k) := fun he => h.1 he.symm
    simp [insertKV, hne, ih h.2]

/-- Folding map assignment over duplicate-free members keeps them unchanged. -/
theorem foldl_insertKV_disjoint {α : Type} (l : List (GoStr × α)) :
    ∀ acc : List (GoStr × α), (l.map Prod.fst).Nodup →
    (∀ k ∈ l.map Prod.fst, k ∉ acc.map Prod.fst) →
    l.foldl (fun a p => insertKV a p.1 p.2) acc = acc ++ l := by
  induction l with
  | nil => intro acc _ _; simp
  | cons p rest ih =>
    intro acc hnd hdisj
    have hstep : insertKV acc p.1 p.2 = acc ++ [(p.1, p.2)] :=
      insertKV_not_mem _ _ _
        (hdisj p.1 (List.mem_map.mpr ⟨p, List.mem_cons_self p rest, rfl⟩))
    have hnd2 : (rest.map Prod.fst).Nodup := by
      simp only [List.map_cons, List.nodup_cons] at hnd
      exact hnd.2
    have hhead : p.1 ∉ rest.map Prod.fst := by
      simp only [List.map_cons, List.nodup_cons] at hnd
      exact hnd.1
    have hdisj2 : ∀ k ∈ rest.map Prod.fst, k ∉ (acc ++ [(p.1, p.2)]).map Prod.fst := by
      intro k hk
      simp only [List.map_append, List.map_cons, List.map_nil, List.mem_append,
                 List.mem_singleton, not_or]
      refine ⟨hdisj k (by rw [List.map_cons]; exact List.mem_cons_of_mem _ hk), ?_⟩
      intro he
      subst he
      exact hhead hk
    rw [List.foldl_cons, hstep, ih (acc ++ [(p.1, p.2)]) hnd2 hdisj2]
    simp

/-- Collapsing duplicate keys over a duplicate-free member list is the
identity. -/
theorem collapseKeys_nodup {α : Type} (l : List (GoStr × α))
    (h : (l.map Prod.fst).Nodup) : collapseKeys l = l := by
  simpa [collapseKeys] using
    foldl_insertKV_disjoint l [] h (fun k _ => by
      rw [List.map_nil]
      exact List.not_mem_nil k)

/-- The digit string of a natural starts with a digit character. -/
theorem natToDigits_cons (A : Nat) :
    ∃ c dt, natToDigits A = c :: dt ∧ isDigitC c = true := by
  obtain ⟨c, hc, hcd⟩ := natToDigits_head A
  match hnd : natToDigits A with
  | [] => rw [hnd] at hc; exact Option.noConfusion hc
  | x :: xs =>
    rw [hnd] at hc
    simp only [List.head?_cons, Option.some.injEq] at hc
    exact ⟨x, xs, rfl, by rw [hc]; exact hcd⟩

/-- Shape of the printer output: an optional minus sign, an integer digit
string, and an optional dot-fraction. -/
theorem formatFloat_shape (q : ℚ) :
    ∃ A ft, (ft = [] ∨ ∃ B w, ft = '.' :: padDigits B w) ∧
      (formatFloat q = natToDigits A ++ ft ∨
       formatFloat q = '-' :: (natToDigits A ++ ft)) := by
  simp only [formatFloat]
  cases hpt : pow10Exp q.den with
  | none =>
    refine ⟨q.num.natAbs, [], Or.inl rfl, ?_⟩
    by_cases hneg : q.num < 0
    · rw [if_pos hneg]; right; simp
    · rw [if_neg hneg]; left; simp
  | some t =>
    by_cases ht0 : t = 0
    · subst ht0
      refine ⟨q.num.natAbs * (10 ^ 0 / q.den), [], Or.inl rfl, ?_⟩
      simp only [reduceIte]
      by_cases hneg : q.num < 0
      · rw [if_pos hneg]; right; simp
      · rw [if_neg hneg]; left; simp
    · refine ⟨q.num.natAbs * (10 ^ t / q.den) / 10 ^ t,
        '.' :: padDigits (q.num.natAbs * (10 ^ t / q.den) % 10 ^ t) t,
        Or.inr ⟨_, _, rfl⟩, ?_⟩
      simp only [if_neg ht0]
      by_cases hneg : q.num < 0
      · rw [if_pos hneg]; right; simp
      · rw [if_neg hneg]; left; simp

/-- Head of the printer output: a minus sign or a digit. -/
theorem formatFloat_head (q : ℚ) :
    ∃ c, (formatFloat q).head? = some c ∧ (c = '-' ∨ isDigitC c = true) := by
  obtain ⟨A, ft, hft, htok | htok⟩ := formatFloat_shape q
  · obtain ⟨c, dt, hdt, hcd⟩ := natToDigits_cons A
    refine ⟨c, ?_, Or.inr hcd⟩
    rw [htok, hdt]
    rfl
  · exact ⟨'-', by rw [htok]; rfl, Or.inl rfl⟩

/-- The printer never prints the empty string. -/
theorem formatFloat_ne_nil (q : ℚ) : formatFloat q ≠ [] := by
  obtain ⟨c, hc, -⟩ := formatFloat_head q
  intro h0
  rw [h0] at hc
  exact Option.noConfusion hc

/-- The printer output starts with a significant character. -/
theorem goodHead_formatFloat (q : ℚ) : goodHead (formatFloat q) := by
  obtain ⟨c, hc, hcase⟩ := formatFloat_head q
  rcases hcase with rfl | hd
  · exact ⟨'-', hc, by decide, by decide, by decide, by decide⟩
  · exact ⟨c, hc, isWS_of_digit c hd, isDigitC_ne c ']' hd (by decide),
      isDigitC_ne c '\x7d' hd (by decide), isDigitC_ne c ',' hd (by decide)⟩

/-- A separator continuation cannot extend a number token. -/
theorem stopTok_num_rest (rest : GoStr) (h : stopTok rest) :
    ∀ c, rest.head? = some c → isDigitC c = false ∧ c ≠ '.' ∧ c ≠ 'e' ∧ c ≠ 'E' := by
  intro c hc
  rcases h with rfl | hh | hh | hh
  · simp at hc
  all_goals
    rw [hc] at hh
    simp only [Option.some.injEq] at hh
    subst hh
    exact ⟨by decide, by decide, by decide, by decide⟩

/-- The scanner consumes exactly the null literal. -/
theorem scanValue_null (fuel : Nat) (rest : GoStr) :
    scanValue (Nat.succ fuel) ("null".data ++ rest) = .ok rest := by
  have h : "null".data ++ rest = 'n' :: ('u' :: 'l' :: 'l' :: rest) := rfl
  rw [h]
  simp [scanValue, stripLit]

/-- The scanner consumes exactly the true literal. -/
theorem scanValue_true (fuel : Nat) (rest : GoStr) :
    scanValue (Nat.succ fuel) ("true".data ++ rest) = .ok rest := by
  have h : "true".data ++ rest = 't' :: ('r' :: 'u' :: 'e' :: rest) := rfl
  rw [h]
  simp [scanValue, stripLit]

/-- The scanner consumes exactly the false literal. -/
theorem scanValue_false (fuel : Nat) (rest : GoStr) :
    scanValue (Nat.succ fuel) ("false".data ++ rest) = .ok rest := by
  have h : "false".data ++ rest = 'f' :: ('a' :: 'l' :: 's' :: 'e' :: rest) := rfl
  rw [h]
  simp [scanValue, stripLit]

/-- The scanner consumes exactly a quoted string literal. -/
theorem scanValue_string (fuel : Nat) (str rest : GoStr) :
    scanValue (Nat.succ fuel) (quoteString str ++ rest) = .ok rest := by
  have h : quoteString str ++ rest = '"' :: (escapeContent str ++ ('"' :: rest)) := by
    simp [quoteString]
  rw [h]
  simp [scanValue, scanStringBody_escapeContent]

/-- The scanner consumes exactly a printed number token. -/
theorem scanValue_number (fuel : Nat) (q : ℚ) (rest : GoStr) (hrest : stopTok rest) :
    scanValue (Nat.succ fuel) (formatFloat q ++ rest) = .ok rest := by
  obtain ⟨A, ft, hft, htok | htok⟩ := formatFloat_shape q <;> rw [htok]
  · obtain ⟨c, dt, hdt, hcd⟩ := natToDigits_cons A
    have hsn := (scanNumber_digits A ft rest hft (stopTok_num_rest rest hrest)).1
    rw [hdt] at hsn ⊢
    have h1 : c ≠ 'n' := isDigitC_ne c 'n' hcd (by decide)
    have h2 : c ≠ 't' := isDigitC_ne c 't' hcd (by decide)
    have h3 : c ≠ 'f' := isDigitC_ne c 'f' hcd (by decide)
    have h4 : c ≠ '"' := isDigitC_ne c '"' hcd (by decide)
    simp only [List.cons_append, List.append_assoc] at hsn ⊢
    simp [scanValue, h1, h2, h3, h4, hcd, hsn]
  · have hsn := (scanNumber_digits A ft rest hft (stopTok_num_rest rest hrest)).2
    simp only [List.cons_append, List.append_assoc] at hsn ⊢
    simp [scanValue, hsn]

/-- Unmarshal of the null literal sets the NullValue kind. -/
theorem unmarshal_null (fuel : Nat) (x : Value) :
    Value.unmarshal (Nat.succ fuel) x "null".data
      = (.mk (some (.nullValue (some ()))), none) := by
  simp [Value.unmarshal]

/-- Unmarshal of the bare boolean literals sets the BoolValue kind. -/
theorem unmarshal_bool (fuel : Nat) (x : Value) (b : Bool) :
    Value.unmarshal (Nat.succ fuel) x (if b then "true".data else "false".data)
      = (.mk (some (.boolValue (some b))), none) := by
  cases b <;>
    simp [Value.unmarshal, parseFloat, parseBool, unquote, skipWS, isWS, takeDigits,
          isDigitC, lowerA]

/-- Unmarshal of a quoted string literal sets the StringValue kind with the
unescaped content. -/
theorem unmarshal_string (fuel : Nat) (x : Value) (str : GoStr) :
    Value.unmarshal (Nat.succ fuel) x (quoteString str)
      = (.mk (some (.stringValue (some str))), none) := by
  have hq : quoteString str = '"' :: (escapeContent str ++ ['"']) := by
    simp [quoteString]
  have hhead : (skipWS (quoteString str)).head? = some '"' := by
    rw [hq, skipWS_cons_not _ _ (by decide)]
    rfl
  have hnn : quoteString str ≠ "null".data := ne_null_of_head _ _ hhead (by decide)
  have hpf : parseFloat (quoteString str) = .error .bad := by
    rw [hq]
    exact parseFloat_head_bad '"' _ (by decide) (by decide) (by decide) (by decide)
      (by decide) (by decide) (by decide)
  simp only [Value.unmarshal, if_neg hnn, hpf, unquote_quoteString]

/-- Unmarshal of a printed number token sets the NumberValue kind with
exactly the printed value. -/
theorem unmarshal_number (fuel : Nat) (x : Value) (q : ℚ) (hq : reprQ q = true) :
    Value.unmarshal (Nat.succ fuel) x (formatFloat q)
      = (.mk (some (.numberValue (some (.finite q)))), none) := by
  have hnn : formatFloat q ≠ "null".data := by
    obtain ⟨c, hc, hcase⟩ := formatFloat_head q
    intro h0
    rw [h0] at hc
    have hcn : c = 'n' := by
      have : ("null".data : GoStr).head? = some 'n' := rfl
      rw [this] at hc
      simpa using hc.symm
    subst hcn
    rcases hcase with h | h
    · exact absurd h (by decide)
    · exact absurd h (by decide)
  simp only [Value.unmarshal, if_neg hnn, parseFloat_formatFloat q hq]

/-- The array split rejects any input whose first significant character is
not an opening bracket. -/
theorem goSplitArray_err_of_head (s : GoStr) (c : Char)
    (hc : (skipWS s).head? = some c) (hne : c ≠ '[') :
    goSplitArray s = .error .typeMismatch := by
  have hnil : skipWS s ≠ [] := by
    intro h0
    rw [h0] at hc
    simp at hc
  have hq : ¬ ((skipWS s).head? = some '[') := by
    rw [hc]
    simp [hne]
  simp [goSplitArray, hq, hnil]

mutual

/-- Marshalling a well-formed Value yields a token the scanner consumes
exactly (leaving any separator continuation) and the decoder maps back to
the same value, with fuel at least the value's nesting depth. -/
theorem marshal_roundtrip_value (v : Value) (hwf : wfValue v = true) :
    ∃ tok, Value.marshalJSON v = .ok tok ∧
      tok ≠ [] ∧ goodHead tok ∧ vDepth v ≤ tok.length ∧
      (∀ fuel rest, vDepth v ≤ fuel → stopTok rest →
         scanValue fuel (tok ++ rest) = .ok rest) ∧
      (∀ fuel x, vDepth v ≤ fuel → Value.unmarshal fuel x tok = (v, none)) := by
  match v, hwf with
  | .mk none, hwf => exact absurd hwf (by simp [wfValue])
  | .mk (some (.nullValue none)), hwf => exact absurd hwf (by simp [wfValue, wfKind])
  | .mk (some (.numberValue none)), hwf => exact absurd hwf (by simp [wfValue, wfKind])
  | .mk (some (.numberValue (some .nan))), hwf =>
    exact absurd hwf (by simp [wfValue, wfKind])
  | .mk (some (.numberValue (some .inf))), hwf =>
    exact absurd hwf (by simp [wfValue, wfKind])
  | .mk (some (.numberValue (some .negInf))), hwf =>
    exact absurd hwf (by simp [wfValue, wfKind])
  | .mk (some (.stringValue none)), hwf => exact absurd hwf (by simp [wfValue, wfKind])
  | .mk (some (.boolValue none)), hwf => exact absurd hwf (by simp [wfValue, wfKind])
  | .mk (some (.structValue none)), hwf => exact absurd hwf (by simp [wfValue, wfKind])
  | .mk (some (.structValue (some (.mk none)))), hwf =>
    exact absurd hwf (by simp [wfValue, wfKind, wfStruct])
  | .mk (some (.listValue none)), hwf => exact absurd hwf (by simp [wfValue, wfKind])
  | .mk (some (.listValue (some (.mk none)))), hwf =>
    exact absurd hwf (by simp [wfValue, wfKind, wfList])
  | .mk (some (.nullValue (some u))), _ =>
    refine ⟨"null".data, by simp [Value.marshalJSON, ValueKind.marshalK], by decide,
      ⟨'n', rfl, by decide, by decide, by decide, by decide⟩, ?_, ?_, ?_⟩
    · simp [vDepth, kDepth]
    · intro fuel rest hfuel hstop
      have h1 : 1 ≤ fuel := le_trans (by simp [vDepth, kDepth]) hfuel
      obtain ⟨f, rfl⟩ : ∃ f, fuel = Nat.succ f := ⟨fuel - 1, by omega⟩
      exact scanValue_null f rest
    · intro fuel x hfuel
      have h1 : 1 ≤ fuel := le_trans (by simp [vDepth, kDepth]) hfuel
      obtain ⟨f, rfl⟩ : ∃ f, fuel = Nat.succ f := ⟨fuel - 1, by omega⟩
      exact unmarshal_null f x
  | .mk (some (.numberValue (some (.finite q)))), hwf =>
    have hq : reprQ q = true := by simpa [wfValue, wfKind] using hwf
    refine ⟨formatFloat q,
      by simp [Value.marshalJSON, ValueKind.marshalK, jsonMarshalFloat],
      formatFloat_ne_nil q, goodHead_formatFloat q, ?_, ?_, ?_⟩
    · have hlen : 1 ≤ (formatFloat q).length :=
        List.length_pos.mpr (formatFloat_ne_nil q)
      simpa [vDepth, kDepth] using hlen
    · intro fuel rest hfuel hstop
      have h1 : 1 ≤ fuel := le_trans (by simp [vDepth, kDepth]) hfuel
      obtain ⟨f, rfl⟩ : ∃ f, fuel = Nat.succ f := ⟨fuel - 1, by omega⟩
      exact scanValue_number f q rest hstop
    · intro fuel x hfuel
      have h1 : 1 ≤ fuel := le_trans (by simp [vDepth, kDepth]) hfuel
      obtain ⟨f, rfl⟩ : ∃ f, fuel = Nat.succ f := ⟨fuel - 1, by omega⟩
      exact unmarshal_number f x q hq
  | .mk (some (.stringValue (some str))), _ =>
    refine ⟨quoteString str, by simp [Value.marshalJSON, ValueKind.marshalK],
      by simp [quoteString],
      ⟨'"', by simp [quoteString], by decide, by decide, by decide, by decide⟩, ?_, ?_, ?_⟩
    · have hlen : 1 ≤ (quoteString str).length :=
        List.length_pos.mpr (by simp [quoteString])
      simpa [vDepth, kDepth] using hlen
    · intro fuel rest hfuel hstop
      have h1 : 1 ≤ fuel := le_trans (by simp [vDepth, kDepth]) hfuel
      obtain ⟨f, rfl⟩ : ∃ f, fuel = Nat.succ f := ⟨fuel - 1, by omega⟩
      exact scanValue_string f str rest
    · intro fuel x hfuel
      have h1 : 1 ≤ fuel := le_trans (by simp [vDepth, kDepth]) hfuel
      obtain ⟨f, rfl⟩ : ∃ f, fuel = Nat.succ f := ⟨fuel - 1, by omega⟩
      exact unmarshal_string f x str
  | .mk (some (.boolValue (some b))), _ =>
    refine ⟨if b then "true".data else "false".data,
      by cases b <;> simp [Value.marshalJSON, ValueKind.marshalK],
      by cases b <;> decide, ?_, ?_, ?_, ?_⟩
    · cases b
      · exact ⟨'f', rfl, by decide, by decide, by decide, by decide⟩
      · exact ⟨'t', rfl, by decide, by decide, by decide, by decide⟩
    · cases b <;> simp [vDepth, kDepth]
    · intro fuel rest hfuel hstop
      have h1 : 1 ≤ fuel := le_trans (by simp [vDepth, kDepth]) hfuel
      obtain ⟨f, rfl⟩ : ∃ f, fuel = Nat.succ f := ⟨fuel - 1, by omega⟩
      cases b
      · exact scanValue_false f rest
      · exact scanValue_true f rest
    · intro fuel x hfuel
      have h1 : 1 ≤ fuel := le_trans (by simp [vDepth, kDepth]) hfuel
      obtain ⟨f, rfl⟩ : ∃ f, fuel = Nat.succ f := ⟨fuel - 1, by omega⟩
      exact unmarshal_bool f x b
  | .mk (some (.structValue (some (.mk (some fs))))), hwf =>
    have hx : strictSorted (fs.map Prod.fst) = true ∧ wfFields fs = true := by
      simpa [wfValue, wfKind, wfStruct] using hwf
    obtain ⟨pairs, hmar, hkeys, hlen, hdep, hscanM, hdecF⟩ :=
      marshal_roundtrip_fields fs hx.2
    refine ⟨'\x7b' :: (joinComma (pairs.map fieldPart) ++ ['\x7d']), ?_, by simp,
      ⟨'\x7b', rfl, by decide, by decide, by decide, by decide⟩, ?_, ?_, ?_⟩
    · simp [Value.marshalJSON, ValueKind.marshalK, Struct.marshalJSON,
            strictSorted_sortFields fs hx.1, hmar]
    · simp only [vDepth, kDepth, sDepth, List.length_cons, List.length_append,
                 List.length_singleton]
      omega
    · intro fuel rest hfuel hstop
      have hfd : 1 + fieldsDepth fs ≤ fuel := by
        simpa [vDepth, kDepth, sDepth] using hfuel
      obtain ⟨f, rfl⟩ : ∃ f, fuel = Nat.succ f := ⟨fuel - 1, by omega⟩
      have hf : fieldsDepth fs ≤ f := by omega
      have hshape : ('\x7b' :: (joinComma (pairs.map fieldPart) ++ ['\x7d'])) ++ rest
          = '\x7b' :: (joinComma (pairs.map fieldPart) ++ ('\x7d' :: rest)) := by
        simp
      rw [hshape]
      cases pairs with
      | nil =>
        simp [scanValue, joinComma, isDigitC, skipWS_cons_not '\x7d' rest (by decide)]
      | cons kv pairs' =>
        have hfs_ne : fs ≠ [] := by
          intro h0
          rw [h0] at hlen
          simp at hlen
        have hghp : goodHead (fieldPart kv) :=
          ⟨'"', by simp [fieldPart, quoteString], by decide, by decide, by decide, by decide⟩
        obtain ⟨X, hX⟩ : ∃ X, joinComma ((kv :: pairs').map fieldPart) = fieldPart kv ++ X := by
          match pairs' with
          | [] => exact ⟨[], by simp [joinComma]⟩
          | kv2 :: ps2 =>
            exact ⟨_, by
              simp only [List.map_cons]
              exact joinComma_cons_ne _ _ (by simp)⟩
        have hskip : skipWS (joinComma ((kv :: pairs').map fieldPart) ++ ('\x7d' :: rest))
            = joinComma ((kv :: pairs').map fieldPart) ++ ('\x7d' :: rest) := by
          rw [hX, List.append_assoc]
          exact skipWS_goodHead _ _ hghp
        have hhead2 : (joinComma ((kv :: pairs').map fieldPart)
            ++ ('\x7d' :: rest)).head? = some '"' := by
          rw [hX, List.append_assoc]
          simp [fieldPart, quoteString]
        have hiter : fs.length
            ≤ (joinComma ((kv :: pairs').map fieldPart) ++ ('\x7d' :: rest)).length := by
          have h1 : ∀ p ∈ (kv :: pairs').map fieldPart, p ≠ ([] : GoStr) := by
            intro p hp2
            obtain ⟨kv0, -, rfl⟩ := List.mem_map.mp hp2
            simp [fieldPart, quoteString]
          have h2 := length_le_joinComma _ h1
          have h3 : ((kv :: pairs').map fieldPart).length = fs.length := by
            simpa using hlen
          simp only [List.length_append, List.length_cons]
          omega
        have hrec := hscanM f _ rest hf hiter hfs_ne
        simp only [List.map_cons, List.length_append, List.length_cons, List.length_nil, List.length_singleton, List.length_map] at hskip hhead2 hrec
        simp [scanValue, isDigitC, isWS, hskip, hhead2, hrec]
    · intro fuel x hfuel
      have hfd : 1 + fieldsDepth fs ≤ fuel := by
        simpa [vDepth, kDepth, sDepth] using hfuel
      obtain ⟨f, rfl⟩ : ∃ f, fuel = Nat.succ f := ⟨fuel - 1, by omega⟩
      have hf : fieldsDepth fs ≤ f := by omega
      have hh : (skipWS ('\x7b' :: (joinComma (pairs.map fieldPart) ++ ['\x7d']))).head?
          = some '\x7b' := by
        rw [skipWS_cons_not _ _ (by decide)]
        rfl
      have hnn := ne_null_of_head _ _ hh (by decide)
      have hpf := parseFloat_err_of_skipWS_head _ _ hh (by decide) (by decide) (by decide)
        (by decide) (by decide) (by decide) (by decide)
      have hunq := unquote_err_of_head _ _ hh (by decide)
      have hpb := parseBool_err_of_head _ _ hh
        ⟨by decide, by decide, by decide, by decide, by decide, by decide⟩
      have harr := goSplitArray_err_of_head _ _ hh (by decide)
      have hobj : goSplitObject ('\x7b' :: (joinComma (pairs.map fieldPart) ++ ['\x7d']))
          = .ok pairs := by
        have hnd : (pairs.map Prod.fst).Nodup := by
          rw [hkeys]
          exact strictSorted_nodup _ hx.1
        cases pairs with
        | nil => simp [goSplitObject, skipWS, isWS, joinComma, collapseKeys]
        | cons kv pairs' =>
          have hfs_ne : fs ≠ [] := by
            intro h0
            rw [h0] at hlen
            simp at hlen
          have hghp : goodHead (fieldPart kv) :=
            ⟨'"', by simp [fieldPart, quoteString], by decide, by decide, by decide, by decide⟩
          obtain ⟨X, hX⟩ : ∃ X, joinComma ((kv :: pairs').map fieldPart)
              = fieldPart kv ++ X := by
            match pairs' with
            | [] => exact ⟨[], by simp [joinComma]⟩
            | kv2 :: ps2 =>
              exact ⟨_, by
                simp only [List.map_cons]
                exact joinComma_cons_ne _ _ (by simp)⟩
          have hskip : skipWS (joinComma ((kv :: pairs').map fieldPart) ++ ['\x7d'])
              = joinComma ((kv :: pairs').map fieldPart) ++ ['\x7d'] := by
            rw [hX, List.append_assoc]
            exact skipWS_goodHead _ _ hghp
          have hhead2 : (joinComma ((kv :: pairs').map fieldPart) ++ ['\x7d']).head?
              = some '"' := by
            rw [hX, List.append_assoc]
            simp [fieldPart, quoteString]
          have hiter : fs.length
              ≤ (joinComma ((kv :: pairs').map fieldPart) ++ ['\x7d']).length := by
            have h1 : ∀ p ∈ (kv :: pairs').map fieldPart, p ≠ ([] : GoStr) := by
              intro p hp2
              obtain ⟨kv0, -, rfl⟩ := List.mem_map.mp hp2
              simp [fieldPart, quoteString]
            have h2 := length_le_joinComma _ h1
            have h3 : ((kv :: pairs').map fieldPart).length = fs.length := by
              simpa using hlen
            simp only [List.length_append, List.length_cons]
            omega
          have hfd2 : fieldsDepth fs
              ≤ depthFuel ('\x7b' :: (joinComma ((kv :: pairs').map fieldPart) ++ ['\x7d'])) := by
            simp only [depthFuel, List.length_cons, List.length_append]
            omega
          have hrec := hscanM
            (depthFuel ('\x7b' :: (joinComma ((kv :: pairs').map fieldPart) ++ ['\x7d'])))
            _ [] hfd2 hiter hfs_ne
          rw [show (joinComma ((kv :: pairs').map fieldPart) ++ ('\x7d' :: ([] : GoStr)))
              = joinComma ((kv :: pairs').map fieldPart) ++ ['\x7d'] from rfl] at hrec
          simp only [List.map_cons, List.length_append, List.length_cons, List.length_nil, List.length_singleton, List.length_map] at hskip hhead2 hrec
          simp [goSplitObject, skipWS_cons_not '\x7b' _ (by decide), isWS, hskip, hhead2,
                hrec, skipWS, collapseKeys_nodup (kv :: pairs') hnd]
      have hS : Struct.unmarshalS f (.mk none)
          ('\x7b' :: (joinComma (pairs.map fieldPart) ++ ['\x7d']))
          = (.mk (some fs), none) := by
        simp [Struct.unmarshalS, hobj, hdecF f hf]
      simp only [Value.unmarshal, if_neg hnn, hpf, hunq, hpb, harr, hobj, hS]
  | .mk (some (.listValue (some (.mk (some vs))))), hwf =>
    have hx : wfElems vs = true := by
      simpa [wfValue, wfKind, wfList] using hwf
    obtain ⟨parts, hmar, hlen, hpg, hdep, hscanE, hdecE⟩ :=
      marshal_roundtrip_elems vs hx
    refine ⟨'[' :: (joinComma parts ++ [']']), ?_, by simp,
      ⟨'[', rfl, by decide, by decide, by decide, by decide⟩, ?_, ?_, ?_⟩
    · simp [Value.marshalJSON, ValueKind.marshalK, ListValue.marshalJSON, hmar]
    · simp only [vDepth, kDepth, lDepth, List.length_cons, List.length_append,
                 List.length_singleton]
      omega
    · intro fuel rest hfuel hstop
      have hfd : 1 + elemsDepth vs ≤ fuel := by
        simpa [vDepth, kDepth, lDepth] using hfuel
      obtain ⟨f, rfl⟩ : ∃ f, fuel = Nat.succ f := ⟨fuel - 1, by omega⟩
      have hf : elemsDepth vs ≤ f := by omega
      have hshape : ('[' :: (joinComma parts ++ [']'])) ++ rest
          = '[' :: (joinComma parts ++ (']' :: rest)) := by
        simp
      rw [hshape]
      cases parts with
      | nil =>
        have hvs : vs = [] := by
          cases vs
          · rfl
          · simp at hlen
        simp [scanValue, joinComma, isDigitC, skipWS_cons_not ']' rest (by decide)]
      | cons p1 ps =>
        have hvs_ne : vs ≠ [] := by
          intro h0
          rw [h0] at hlen
          simp at hlen
        have hgh1 : goodHead p1 := (hpg p1 (by simp)).2
        obtain ⟨X, hX⟩ : ∃ X, joinComma (p1 :: ps) = p1 ++ X := by
          match ps with
          | [] => exact ⟨[], by simp [joinComma]⟩
          | p2 :: ps2 => exact ⟨_, joinComma_cons_ne _ _ (by simp)⟩
        have hskip : skipWS (joinComma (p1 :: ps) ++ (']' :: rest))
            = joinComma (p1 :: ps) ++ (']' :: rest) := by
          rw [hX, List.append_assoc]
          exact skipWS_goodHead _ _ hgh1
        obtain ⟨c, hcp, hws0, hcbr, hcbr2, hcm⟩ := hgh1
        have hhead2 : (joinComma (p1 :: ps) ++ (']' :: rest)).head? = some c := by
          rw [hX, List.append_assoc]
          match p1, hcp with
          | x :: p1t, hcp =>
            simp only [List.head?_cons, Option.some.injEq] at hcp
            subst hcp
            rfl
        have hiter : vs.length ≤ (joinComma (p1 :: ps) ++ (']' :: rest)).length := by
          have h2 := length_le_joinComma (p1 :: ps) (fun p hp => (hpg p hp).1)
          simp only [List.length_append, List.length_cons]
          omega
        have hrec := hscanE f _ rest hf hiter hvs_ne
        simp only [List.length_append, List.length_cons, List.length_nil,
                   List.length_singleton, List.length_map] at hrec
        simp [scanValue, isDigitC, isWS, hskip, hhead2, hcbr, hrec]
    · intro fuel x hfuel
      have hfd : 1 + elemsDepth vs ≤ fuel := by
        simpa [vDepth, kDepth, lDepth] using hfuel
      obtain ⟨f, rfl⟩ : ∃ f, fuel = Nat.succ f := ⟨fuel - 1, by omega⟩
      have hf : elemsDepth vs ≤ f := by omega
      have hh : (skipWS ('[' :: (joinComma parts ++ [']']))).head? = some '[' := by
        rw [skipWS_cons_not _ _ (by decide)]
        rfl
      have hnn := ne_null_of_head _ _ hh (by decide)
      have hpf := parseFloat_err_of_skipWS_head _ _ hh (by decide) (by decide) (by decide)
        (by decide) (by decide) (by decide) (by decide)
      have hunq := unquote_err_of_head _ _ hh (by decide)
      have hpb := parseBool_err_of_head _ _ hh
        ⟨by decide, by decide, by decide, by decide, by decide, by decide⟩
      have harr : goSplitArray ('[' :: (joinComma parts ++ [']'])) = .ok parts := by
        cases parts with
        | nil => simp [goSplitArray, skipWS, isWS, joinComma]
        | cons p1 ps =>
          have hvs_ne : vs ≠ [] := by
            intro h0
            rw [h0] at hlen
            simp at hlen
          have hgh1 : goodHead p1 := (hpg p1 (by simp)).2
          obtain ⟨X, hX⟩ : ∃ X, joinComma (p1 :: ps) = p1 ++ X := by
            match ps with
            | [] => exact ⟨[], by simp [joinComma]⟩
            | p2 :: ps2 => exact ⟨_, joinComma_cons_ne _ _ (by simp)⟩
          have hskip : skipWS (joinComma (p1 :: ps) ++ [']'])
              = joinComma (p1 :: ps) ++ [']'] := by
            rw [hX, List.append_assoc]
            exact skipWS_goodHead _ _ hgh1
          obtain ⟨c, hcp, hws0, hcbr, hcbr2, hcm⟩ := hgh1
          have hhead2 : (joinComma (p1 :: ps) ++ [']']).head? = some c := by
            rw [hX, List.append_assoc]
            match p1, hcp with
            | x :: p1t, hcp =>
              simp only [List.head?_cons, Option.some.injEq] at hcp
              subst hcp
              rfl
          have hiter : vs.length ≤ (joinComma (p1 :: ps) ++ [']']).length := by
            have h2 := length_le_joinComma (p1 :: ps) (fun p hp => (hpg p hp).1)
            simp only [List.length_append, List.length_cons]
            omega
          have hfd2 : elemsDepth vs
              ≤ depthFuel ('[' :: (joinComma (p1 :: ps) ++ [']'])) := by
            simp only [depthFuel, List.length_cons, List.length_append]
            omega
          have hrec := hscanE (depthFuel ('[' :: (joinComma (p1 :: ps) ++ [']'])))
            _ [] hfd2 hiter hvs_ne
          rw [show (joinComma (p1 :: ps) ++ (']' :: ([] : GoStr)))
              = joinComma (p1 :: ps) ++ [']'] from rfl] at hrec
          simp only [List.length_append, List.length_cons, List.length_nil,
                     List.length_singleton, List.length_map] at hrec
          simp [goSplitArray, skipWS_cons_not '[' _ (by decide), isWS, hskip, hhead2, hcbr,
                hrec, skipWS]
      have hL : ListValue.unmarshalL f (.mk none) ('[' :: (joinComma parts ++ [']']))
          = (.mk (some vs), none) := by
        simp [ListValue.unmarshalL, harr, hdecE f hf]
      simp only [Value.unmarshal, if_neg hnn, hpf, hunq, hpb, harr, hL]

/-- Marshalling a well-formed element list yields fragments that scanItems
recovers verbatim and the element decode loop maps back to the list. -/
theorem marshal_roundtrip_elems (vs : List (Option Value)) (hwf : wfElems vs = true) :
    ∃ parts, marshalElems vs = .ok parts ∧
      parts.length = vs.length ∧
      (∀ p ∈ parts, p ≠ [] ∧ goodHead p) ∧
      elemsDepth vs ≤ (joinComma parts).length ∧
      (∀ fuel iter rest, elemsDepth vs ≤ fuel → vs.length ≤ iter → vs ≠ [] →
         scanItems fuel iter (joinComma parts ++ (']' :: rest)) = .ok (parts, rest)) ∧
      (∀ fuel, elemsDepth vs ≤ fuel → unmarshalElems fuel parts = (vs, none)) := by
  match vs, hwf with
  | [], _ =>
    refine ⟨[], by simp [marshalElems], rfl, by simp, by simp [joinComma, elemsDepth],
      ?_, ?_⟩
    · intro fuel iter rest _ _ hne
      exact absurd rfl hne
    · intro fuel _
      simp [unmarshalElems]
  | none :: rest0, hwf => exact absurd hwf (by simp [wfElems])
  | some v :: rest0, hwf =>
    have hx : wfValue v = true ∧ wfElems rest0 = true := by
      simpa [wfElems] using hwf
    obtain ⟨tok, hmar, htne, hgh, hdepv, hscanV, hdecV⟩ := marshal_roundtrip_value v hx.1
    obtain ⟨parts, hmar2, hlen2, hpg, hdep2, hscan2, hdec2⟩ :=
      marshal_roundtrip_elems rest0 hx.2
    refine ⟨tok :: parts, ?_, by simp [hlen2], ?_, ?_, ?_, ?_⟩
    · simp [marshalElems, marshalEntry, hmar, hmar2]
    · intro p hp
      rcases List.mem_cons.mp hp with rfl | hp
      · exact ⟨htne, hgh⟩
      · exact hpg p hp
    · have hjlen : tok.length ≤ (joinComma (tok :: parts)).length ∧
          (joinComma parts).length ≤ (joinComma (tok :: parts)).length := by
        match parts with
        | [] => simp [joinComma]
        | p1 :: ps =>
          rw [joinComma_cons_ne _ _ (by simp)]
          simp only [List.length_append, List.length_cons]
          omega
      simp only [elemsDepth, entryDepth]
      exact max_le (le_trans hdepv hjlen.1) (le_trans hdep2 hjlen.2)
    · intro fuel iter rest2 hfuel hiter hne
      have hmax : max (vDepth v) (elemsDepth rest0) ≤ fuel := by
        simpa [elemsDepth, entryDepth] using hfuel
      have hfv : vDepth v ≤ fuel := le_trans (le_max_left _ _) hmax
      have hfr : elemsDepth rest0 ≤ fuel := le_trans (le_max_right _ _) hmax
      obtain ⟨it, rfl⟩ : ∃ it, iter = Nat.succ it := by
        refine ⟨iter - 1, ?_⟩
        have h1 : 1 ≤ iter := le_trans (by simp) hiter
        omega
      have hit : rest0.length ≤ it := by
        simp only [List.length_cons] at hiter
        omega
      cases parts with
      | nil =>
        have hr0 : rest0 = [] := by
          cases rest0
          · rfl
          · simp at hlen2
        subst hr0
        have hjc : joinComma [tok] = tok := by simp [joinComma]
        rw [hjc]
        have hsv := hscanV fuel (']' :: rest2) hfv (Or.inr (Or.inr (Or.inl rfl)))
        simp [scanItems, hsv, take_diff_append, skipWS_cons_not ']' rest2 (by decide)]
      | cons p1 ps =>
        have hrne : rest0 ≠ [] := by
          intro h0
          subst h0
          simp at hlen2
        have hjc : joinComma (tok :: p1 :: ps) = tok ++ ',' :: joinComma (p1 :: ps) :=
          joinComma_cons_ne _ _ (by simp)
        rw [hjc, List.append_assoc]
        simp only [List.cons_append]
        have hsv := hscanV fuel (',' :: (joinComma (p1 :: ps) ++ ']' :: rest2)) hfv
          (Or.inr (Or.inl rfl))
        have hgh1 : goodHead p1 := (hpg p1 (by simp)).2
        have hskip : skipWS (joinComma (p1 :: ps) ++ ']' :: rest2)
            = joinComma (p1 :: ps) ++ ']' :: rest2 := by
          obtain ⟨X, hX⟩ : ∃ X, joinComma (p1 :: ps) = p1 ++ X := by
            match ps with
            | [] => exact ⟨[], by simp [joinComma]⟩
            | p2 :: ps2 => exact ⟨_, joinComma_cons_ne _ _ (by simp)⟩
          rw [hX, List.append_assoc]
          exact skipWS_goodHead _ _ hgh1
        have hrec := hscan2 fuel it rest2 hfr hit hrne
        simp [scanItems, hsv, take_diff_append, skipWS_cons_not ',' _ (by decide),
              hskip, hrec]
    · intro fuel hfuel
      have hmax : max (vDepth v) (elemsDepth rest0) ≤ fuel := by
        simpa [elemsDepth, entryDepth] using hfuel
      have h1 := hdecV fuel (.mk none) (le_trans (le_max_left _ _) hmax)
      have h2 := hdec2 fuel (le_trans (le_max_right _ _) hmax)
      simp [unmarshalElems, h1, h2]

/-- Marshalling a well-formed field list yields key/value fragments that
scanMembers recovers with decoded keys, and the member decode loop maps
back to the field list. -/
theorem marshal_roundtrip_fields (fs : List (GoStr × Option Value))
    (hwf : wfFields fs = true) :
    ∃ pairs : List (GoStr × GoStr), marshalFields fs = .ok (pairs.map fieldPart) ∧
      pairs.map Prod.fst = fs.map Prod.fst ∧
      pairs.length = fs.length ∧
      fieldsDepth fs ≤ (joinComma (pairs.map fieldPart)).length ∧
      (∀ fuel iter rest, fieldsDepth fs ≤ fuel → fs.length ≤ iter → fs ≠ [] →
         scanMembers fuel iter (joinComma (pairs.map fieldPart) ++ ('\x7d' :: rest))
           = .ok (pairs, rest)) ∧
      (∀ fuel, fieldsDepth fs ≤ fuel → unmarshalFields fuel pairs = (fs, none)) := by
  match fs, hwf with
  | [], _ =>
    refine ⟨[], by simp [marshalFields], rfl, rfl, by simp [joinComma, fieldsDepth],
      ?_, ?_⟩
    · intro fuel iter rest _ _ hne
      exact absurd rfl hne
    · intro fuel _
      simp [unmarshalFields]
  | (k, none) :: rest0, hwf => exact absurd hwf (by simp [wfFields])
  | (k, some v) :: rest0, hwf =>
    have hx : wfValue v = true ∧ wfFields rest0 = true := by
      simpa [wfFields] using hwf
    obtain ⟨tok, hmar, htne, hgh, hdepv, hscanV, hdecV⟩ := marshal_roundtrip_value v hx.1
    obtain ⟨pairs, hmar2, hkeys2, hlen2, hdep2, hscan2, hdec2⟩ :=
      marshal_roundtrip_fields rest0 hx.2
    refine ⟨(k, tok) :: pairs, ?_, by simp [hkeys2], by simp [hlen2], ?_, ?_, ?_⟩
    · simp [marshalFields, marshalEntry, hmar, hmar2, fieldPart]
    · have hjlen : (fieldPart (k, tok)).length
            ≤ (joinComma (((k, tok) :: pairs).map fieldPart)).length ∧
          (joinComma (pairs.map fieldPart)).length
            ≤ (joinComma (((k, tok) :: pairs).map fieldPart)).length := by
        simp only [List.map_cons]
        match hps : pairs.map fieldPart with
        | [] => simp [joinComma]
        | p1 :: ps =>
          rw [joinComma_cons_ne _ _ (by simp)]
          simp only [List.length_append, List.length_cons]
          omega
      have htoklen : tok.length ≤ (fieldPart (k, tok)).length := by
        simp [fieldPart]
        omega
      simp only [fieldsDepth, entryDepth]
      exact max_le (le_trans hdepv (le_trans htoklen hjlen.1)) (le_trans hdep2 hjlen.2)
    · intro fuel iter rest2 hfuel hiter hne
      have hmax : max (vDepth v) (fieldsDepth rest0) ≤ fuel := by
        simpa [fieldsDepth, entryDepth] using hfuel
      have hfv : vDepth v ≤ fuel := le_trans (le_max_left _ _) hmax
      have hfr : fieldsDepth rest0 ≤ fuel := le_trans (le_max_right _ _) hmax
      obtain ⟨it, rfl⟩ : ∃ it, iter = Nat.succ it := by
        refine ⟨iter - 1, ?_⟩
        have h1 : 1 ≤ iter := le_trans (by simp) hiter
        omega
      have hit : rest0.length ≤ it := by
        simp only [List.length_cons] at hiter
        omega
      cases pairs with
      | nil =>
        have hr0 : rest0 = [] := by
          cases rest0
          · rfl
          · simp at hlen2
        subst hr0
        have hjc : joinComma [fieldPart (k, tok)] = fieldPart (k, tok) := by
          simp [joinComma]
        simp only [List.map_cons, List.map_nil, hjc]
        have hform : fieldPart (k, tok) ++ ('\x7d' :: rest2)
            = '"' :: (escapeContent k ++ '"' :: (':' :: (tok ++ '\x7d' :: rest2))) := by
          simp [fieldPart, quoteString]
        rw [hform]
        have hsv := hscanV fuel ('\x7d' :: rest2) hfv (Or.inr (Or.inr (Or.inr rfl)))
        have hskipv : skipWS (tok ++ '\x7d' :: rest2) = tok ++ '\x7d' :: rest2 :=
          skipWS_goodHead _ _ hgh
        simp [scanMembers, scanStringBody_escapeContent, unquoteContent_escapeContent,
              skipWS_cons_not ':' _ (by decide), hskipv, hsv, take_diff_append,
              skipWS_cons_not '\x7d' _ (by decide)]
      | cons kv2 pairs' =>
        have hrne : rest0 ≠ [] := by
          intro h0
          subst h0
          simp at hlen2
        have hjc : joinComma (((k, tok) :: kv2 :: pairs').map fieldPart)
            = fieldPart (k, tok) ++ ',' :: joinComma ((kv2 :: pairs').map fieldPart) := by
          simp only [List.map_cons]
          exact joinComma_cons_ne _ _ (by simp)
        rw [hjc, List.append_assoc]
        have hform : fieldPart (k, tok)
            ++ ((',' :: joinComma ((kv2 :: pairs').map fieldPart)) ++ ('\x7d' :: rest2))
            = '"' :: (escapeContent k ++ '"' :: (':' :: (tok ++ ','
                :: (joinComma ((kv2 :: pairs').map fieldPart) ++ ('\x7d' :: rest2))))) := by
          simp [fieldPart, quoteString]
        rw [hform]
        have hsv := hscanV fuel
          (',' :: (joinComma ((kv2 :: pairs').map fieldPart) ++ ('\x7d' :: rest2))) hfv
          (Or.inr (Or.inl rfl))
        have hskipv : skipWS (tok ++ ','
            :: (joinComma ((kv2 :: pairs').map fieldPart) ++ ('\x7d' :: rest2)))
            = tok ++ ',' :: (joinComma ((kv2 :: pairs').map fieldPart) ++ ('\x7d' :: rest2)) :=
          skipWS_goodHead _ _ hgh
        have hghp : goodHead (fieldPart kv2) :=
          ⟨'"', by simp [fieldPart, quoteString], by decide, by decide, by decide, by decide⟩
        have hskip2 : skipWS (joinComma ((kv2 :: pairs').map fieldPart) ++ ('\x7d' :: rest2))
            = joinComma ((kv2 :: pairs').map fieldPart) ++ ('\x7d' :: rest2) := by
          obtain ⟨X, hX⟩ : ∃ X, joinComma ((kv2 :: pairs').map fieldPart)
              = fieldPart kv2 ++ X := by
            match pairs' with
            | [] => exact ⟨[], by simp [joinComma]⟩
            | kv3 :: ps3 =>
              exact ⟨_, by
                simp only [List.map_cons]
                exact joinComma_cons_ne _ _ (by simp)⟩
          rw [hX, List.append_assoc]
          exact skipWS_goodHead _ _ hghp
        have hrec := hscan2 fuel it rest2 hfr hit hrne
        simp only [List.map_cons, List.length_append, List.length_cons, List.length_nil,
                   List.length_singleton, List.length_map] at hsv hskipv hskip2 hrec
        simp [scanMembers, scanStringBody_escapeContent, unquoteContent_escapeContent,
              skipWS_cons_not ':' _ (by decide), hskipv, hsv, take_diff_append,
              skipWS_cons_not ',' _ (by decide), hskip2, hrec]
    · intro fuel hfuel
      have hmax : max (vDepth v) (fieldsDepth rest0) ≤ fuel := by
        simpa [fieldsDepth, entryDepth] using hfuel
      have h1 := hdecV fuel (.mk none) (le_trans (le_max_left _ _) hmax)
      have h2 := hdec2 fuel (le_trans (le_max_right _ _) hmax)
      simp [unmarshalFields, h1, h2]

end

/-- Claim C2: for every Value tree that is well-formed in the sense of the
spec's round-trip domain - every Number a finite float64-representable
value, every variant pointer and container allocated, and the Struct field
lists in the canonical sorted-key order that represents the unordered Go
map - MarshalJSON succeeds, and decoding its output (json.Unmarshal into a
fresh Value, i.e. Value.unmarshal on the marshalled text) succeeds and
returns a Value deep-equal to the original. -/
theorem claim_C2_encode_decode_roundtrip (v : Value) (hwf : wfValue v = true) :
    ∃ s, Value.marshalJSON v = .ok s ∧ decodeValue s = .ok v := by
  obtain ⟨tok, hmar, htne, -, hdeplen, -, hdec⟩ := marshal_roundtrip_value v hwf
  refine ⟨tok, hmar, ?_⟩
  have hfuel : vDepth v ≤ depthFuel tok := by
    simp only [depthFuel]
    omega
  have hrun := hdec (depthFuel tok) (.mk none) hfuel
  simp [decodeValue, Value.unmarshalJSON, hrun]

/-- Witness for claim C2 at a concrete nested tree: a struct holding a
number field and a list field with a boolean and a string element. -/
theorem claim_C2_encode_decode_roundtrip_witness :
    ∃ s, Value.marshalJSON (Value.mk (some (.structValue (some (.mk (some
        [("a".data, some (.mk (some (.numberValue (some (.finite 1)))))),
         ("b".data, some (.mk (some (.listValue (some (.mk (some
           [some (.mk (some (.boolValue (some true)))),
            some (.mk (some (.stringValue (some "x".data))))])))))))])))))) = .ok s ∧
      decodeValue s = .ok (Value.mk (some (.structValue (some (.mk (some
        [("a".data, some (.mk (some (.numberValue (some (.finite 1)))))),
         ("b".data, some (.mk (some (.listValue (some (.mk (some
           [some (.mk (some (.boolValue (some true)))),
            some (.mk (some (.stringValue (some "x".data))))])))))))])))))) :=
  claim_C2_encode_decode_roundtrip _ (by
    have h0 : reprQ 1 = true := by
      rw [reprQ]
      norm_num [ovfThreshold, Nat.mod_one]
    simp [wfValue, wfKind, wfStruct, wfFields, wfList, wfElems, strictSorted,
          strLt, h0])

end StructPB
